import Mathlib

/-!
# JSONPath evaluator: the terminal editor and its query engine

A shallow embedding of `main.go` (the editor model, its constructor and its
`Update` function) together with the query engine the editor delegates to.

Conventions of the embedding:

* A Go `string` is a `String`; a byte is the character with the same code, so
  `string(b)` and `[]byte(s)` are the identity on contents.
* A Go `[]byte` is an `Option String`: `none` is the nil slice.
* A Go `int` is an `Int`; arithmetic that can leave the 64-bit range is wrapped
  with `wrap64`.
* The widget library and `jsonslice.Get` are external: every library function
  with behaviour of its own is a field of `Deps` and the development is
  parametric in it.  Only the focus flag and stored text of a widget, and the
  key-binding helpers, are represented directly.
-/

namespace JsonPathEvaluator

/-! ## Go values -/

/-- Go byte slice: `none` is the nil slice, `some s` a slice with the bytes of `s`. -/
abbrev ByteSlice := Option String

/-- The conversion `string(b)` of a byte slice; the nil slice gives the empty string. -/
def ByteSlice.toGoString : ByteSlice → String
  | none => ""
  | some s => s

/-- Two's-complement wrap of an integer into the range of a 64-bit Go `int`. -/
def wrap64 (x : Int) : Int :=
  (x + 9223372036854775808) % 18446744073709551616 - 9223372036854775808

/-- Go integer division by a positive constant truncates toward zero. -/
def goDiv (x y : Int) : Int :=
  if 0 ≤ x then x / y else -((-x) / y)

/-! ## Messages and commands of the run loop -/

/-- Message delivered to `Update`.  A key message is identified by the text its
`String()` method returns (`"a"`, `"tab"`, `"shift+tab"`, `"esc"`, `"ctrl+c"`, ...). -/
inductive Msg where
  | key (name : String)
  | windowSize (width height : Int)
  | other (tag : Nat)
  deriving DecidableEq, Repr

/-- Command returned to the run loop: nothing, the quit command, a command
produced by a widget, or a batch. -/
inductive Cmd where
  | none
  | quit
  | widget (tag : Nat)
  | batch (cmds : List Cmd)
  deriving Repr

/-! ## Key bindings (`bubbles/key`) -/

/-- Key binding: the keys it reacts to, its help entry and its disabled flag. -/
structure Binding where
  keys : List String
  helpKey : String
  helpDesc : String
  disabled : Bool
  deriving DecidableEq, Repr

/-- The constructor `key.NewBinding(key.WithKeys(ks...), key.WithHelp(k, d))`. -/
def Binding.new (ks : List String) (k d : String) : Binding :=
  { keys := ks, helpKey := k, helpDesc := d, disabled := false }

/-- The method `SetHelp(k, d)`: replaces the help entry only. -/
def Binding.SetHelp (b : Binding) (k d : String) : Binding :=
  { b with helpKey := k, helpDesc := d }

/-- The test `key.Matches(msg, b)`: the binding is enabled and one of its keys
is the key's name. -/
def Binding.Matches (name : String) (b : Binding) : Bool :=
  !b.disabled && b.keys.contains name

/-- The three bindings of the editor. -/
structure keymap where
  next : Binding
  delete : Binding
  quit : Binding
  deriving DecidableEq, Repr

/-! ## Widgets (`bubbles/textinput`, `bubbles/textarea`) -/

/-- Single-line text input: the text `Value()` returns, the focus flag and the
configuration fields `newModel` assigns. -/
structure TextInput where
  value : String
  focus : Bool
  placeholder : String
  charLimit : Int
  width : Int
  deriving DecidableEq, Repr

/-- Method `Focus()` of the text input. -/
def TextInput.Focus (t : TextInput) : TextInput := { t with focus := true }

/-- Method `Blur()` of the text input. -/
def TextInput.Blur (t : TextInput) : TextInput := { t with focus := false }

/-- Method `Value()` of the text input. -/
def TextInput.Value (t : TextInput) : String := t.value

/-- Multi-line text area: the text `Value()` returns, the focus flag, the size
the widget currently has and the configuration fields the constructors assign. -/
structure TextArea where
  value : String
  focus : Bool
  width : Int
  height : Int
  prompt : String
  placeholder : String
  showLineNumbers : Bool
  deriving DecidableEq, Repr

/-- Method `Focus()` of the text area. -/
def TextArea.Focus (t : TextArea) : TextArea := { t with focus := true }

/-- Method `Blur()` of the text area. -/
def TextArea.Blur (t : TextArea) : TextArea := { t with focus := false }

/-- Method `Focused()` of the text area. -/
def TextArea.Focused (t : TextArea) : Bool := t.focus

/-- Method `Value()` of the text area. -/
def TextArea.Value (t : TextArea) : String := t.value

/-- The external functions the editor calls: `jsonslice.Get` (an error is
identified with the text of its `Error()` method) and the widget functions that
have behaviour of their own. -/
structure Deps where
  get : ByteSlice → String → Except String ByteSlice
  tiNew : TextInput
  tiSetValue : TextInput → String → TextInput
  tiUpdate : TextInput → Msg → TextInput × Cmd
  taNew : TextArea
  taSetValue : TextArea → String → TextArea
  taSetWidth : TextArea → Int → TextArea
  taSetHeight : TextArea → Int → TextArea
  taUpdate : TextArea → Msg → TextArea × Cmd

/-! ## `main.go` -/

/-- Constant `helpHeight`. -/
def helpHeight : Int := 5

/-- Function `newTextarea`.  The style and key-map assignments (lines 58-68)
only affect rendering and the widget's own key handling, which is the
parameter `taUpdate`; they have no field here. -/
def newTextarea (D : Deps) : TextArea :=
  let t := D.taNew
  let t := { t with prompt := "" }
  let t := { t with placeholder := "Type something" }
  let t := { t with showLineNumbers := true }
  t.Blur

/-- Function `newTextareaResults`; see `newTextarea` for the omitted style lines. -/
def newTextareaResults (D : Deps) : TextArea :=
  let t := D.taNew
  let t := { t with prompt := "" }
  let t := { t with placeholder := "Results" }
  let t := { t with showLineNumbers := false }
  t.Blur

/-- Struct `editorModel`; the `help` field (a renderer without state read by
`Update`) is not represented. -/
structure editorModel where
  textInput : TextInput
  width : Int
  height : Int
  keymap : keymap
  initialInput : ByteSlice
  input : TextArea
  result : TextArea
  deriving DecidableEq, Repr

/-- What a call of `Update` produces: the returned model, the returned command,
and the calls of `jsonslice.Get` made during the call, in order, each with its
document and path arguments. -/
structure UpdateResult where
  model : editorModel
  cmd : Cmd
  evals : List (ByteSlice × String)

/-- Method `sizeInputs`. -/
def editorModel.sizeInputs (D : Deps) (m : editorModel) : editorModel :=
  let m := { m with input := D.taSetWidth m.input (goDiv m.width 2) }
  let m := { m with input := D.taSetHeight m.input (wrap64 (wrap64 (m.height - helpHeight) - 6)) }
  let m := { m with result := D.taSetWidth m.result (goDiv m.width 2) }
  let m := { m with result := D.taSetHeight m.result (wrap64 (wrap64 (m.height - helpHeight) - 6)) }
  m

/-- The text `Update` puts into the result pane for an outcome of
`jsonslice.Get` (lines 151-155): the error's message, or `string(result)`. -/
def renderOutcome : Except String ByteSlice → String
  | Except.error err => err
  | Except.ok result => result.toGoString

/-- Lines 137-156 of `Update`: everything after the message switch. -/
def editorModel.afterSwitch (D : Deps) (m : editorModel) (msg : Msg) : UpdateResult :=
  let m := m.sizeInputs D
  let r1 := D.tiUpdate m.textInput msg
  let m := { m with textInput := r1.1 }
  let r2 := D.taUpdate m.input msg
  let m := { m with input := r2.1 }
  let outcome := D.get m.initialInput m.textInput.Value
  let m := { m with result := D.taSetValue m.result (renderOutcome outcome) }
  { model := m, cmd := Cmd.batch [r1.2, r2.2], evals := [(m.initialInput, m.textInput.Value)] }

/-- Method `Update`. -/
def editorModel.Update (D : Deps) (m : editorModel) (msg : Msg) : UpdateResult :=
  match msg with
  | Msg.key name =>
    if Binding.Matches name m.keymap.quit then
      let m := { m with textInput := m.textInput.Blur }
      let m := { m with input := m.input.Blur }
      let m := { m with result := m.result.Blur }
      { model := m, cmd := Cmd.quit, evals := [] }
    else if Binding.Matches name m.keymap.next then
      if m.input.Focused then
        let m := { m with input := m.input.Blur }
        let m := { m with textInput := m.textInput.Focus }
        let m := { m with keymap := { m.keymap with
          next := m.keymap.next.SetHelp "tab" "(switch to jsonpath query)" } }
        m.afterSwitch D msg
      else
        let m := { m with input := m.input.Focus }
        let m := { m with textInput := m.textInput.Blur }
        let m := { m with keymap := { m.keymap with
          next := m.keymap.next.SetHelp "tab" "(switch to editor)" } }
        m.afterSwitch D msg
    else if Binding.Matches name m.keymap.delete then
      let m := { m with input := D.taSetValue m.input "" }
      m.afterSwitch D msg
    else
      m.afterSwitch D msg
  | Msg.windowSize w h =>
    let m := { m with height := h }
    let m := { m with width := w }
    m.afterSwitch D msg
  | Msg.other _ =>
    m.afterSwitch D msg

/-- The sample access-request document of line 231. -/
def sampleDocument : String :=
  "\x7b\r    \"accessRequestId\": \"2c91808b6ef1d43e016efba0ce470904\",\r    \"requestedFor\": \x7b\r        \"type\": \"IDENTITY\",\r        \"id\": \"2c91808568c529c60168cca6f90c1313\",\r        \"name\": \"William Wilson\"\r    \x7d,\r    \"requestedItemsStatus\": [\r        \x7b\r            \"id\": \"2c91808b6ef1d43e016efba0ce470904\",\r            \"name\": \"Engineering Access\",\r            \"description\": \"Access to engineering database\",\r            \"type\": \"ACCESS_PROFILE\",\r            \"operation\": \"Add\",\r            \"comment\": \"William needs this access to do his job.\",\r            \"clientMetadata\": \x7b\r                \"applicationName\": \"My application\"\r            \x7d,\r            \"approvalInfo\": [\r                \x7b\r                    \"approvalComment\": \"This access looks good.  Approved.\",\r                    \"approvalDecision\": \"APPROVED\",\r                    \"approverName\": \"Stephen.Austin\",\r                    \"approver\": \x7b\r                        \"type\": \"IDENTITY\",\r                        \"id\": \"2c91808568c529c60168cca6f90c1313\",\r                        \"name\": \"William Wilson\"\r                    \x7d\r                \x7d\r            ]\r        \x7d\r    ],\r    \"requestedBy\": \x7b\r        \"type\": \"IDENTITY\",\r        \"id\": \"2c91808568c529c60168cca6f90c1313\",\r        \"name\": \"William Wilson\"\r    \x7d\r\x7d"

/-- Function `newModel`. -/
def newModel (D : Deps) (defaultJson : ByteSlice) : editorModel :=
  let ti := D.tiNew
  let ti := { ti with placeholder := "$.requestedItemsStatus[0].id" }
  let ti := D.tiSetValue ti "$.requestedItemsStatus[0].id"
  let ti := ti.Focus
  let ti := { ti with charLimit := 1000 }
  let ti := { ti with width := 500 }
  let m : editorModel :=
    { textInput := ti
      input := newTextarea D
      result := newTextareaResults D
      width := 0
      height := 0
      initialInput := none
      keymap :=
        { next := Binding.new ["tab"] "tab" "(switch to editor)"
          delete := Binding.new ["shift+tab"] "shift+tab" "Clear editor"
          quit := Binding.new ["esc", "ctrl+c"] "esc" "quit" } }
  let m :=
    match defaultJson with
    | some bytes =>
      let m := { m with initialInput := some bytes }
      let m := { m with input := D.taSetValue m.input (ByteSlice.toGoString (some bytes)) }
      { m with textInput := D.tiSetValue m.textInput "$" }
    | none =>
      { m with input := D.taSetValue m.input sampleDocument }
  { m with textInput := m.textInput.Focus }

/-- The model after a sequence of calls of `Update`, each on the model the
previous call returned. -/
def editorModel.updates (D : Deps) (m : editorModel) : List Msg → editorModel
  | [] => m
  | msg :: rest => editorModel.updates D (m.Update D msg).model rest


/-! ## The query engine

`jsonslice.Get` is evaluated by a library whose source is not part of
`main.go`; the definitions of this section model it from the specification of
the engine (lexer/cursor, path parser, evaluator, result assembler). -/

namespace Engine

/-- Modelled from the spec: the `ParseError` family (query string malformed),
the first of the two disjoint error families of the missing engine. -/
inductive ParseError where
  | UnexpectedToken
  | InvalidFieldName
  | EmptyStep
  | UnterminatedBracket
  | UnterminatedFilter
  deriving DecidableEq, Repr

/-- Modelled from the spec: the `EvalError` family (input document malformed
while being scanned) of the missing engine. -/
inductive EvalError where
  | UnexpectedEndOfInput
  | InvalidByte
  deriving DecidableEq, Repr

/-- Modelled from the spec: the error of the missing `query` operation, one of
the two families. -/
inductive Error where
  | parse (e : ParseError)
  | eval (e : EvalError)
  deriving DecidableEq, Repr

/-- Modelled from the spec: the `Span` of the missing engine, a half-open
byte-offset interval `[start, stop)` into the input buffer. -/
structure Span where
  start : Nat
  stop : Nat
  deriving DecidableEq, Repr

/-- Modelled from the spec: the value kinds the missing lexer's `classify`
distinguishes. -/
inductive Kind where
  | object
  | array
  | string
  | number
  | boolean
  | null
  deriving DecidableEq, Repr

/-- Modelled from the spec: helper of the missing engine.
The double-quote character. -/
def dquote : Char := Char.ofNat 34

/-- Modelled from the spec: helper of the missing engine.
The backslash character. -/
def backslash : Char := Char.ofNat 92

/-- Modelled from the spec: helper of the missing engine.
JSON whitespace: space, tab, line feed, carriage return. -/
def isWs (c : Char) : Bool :=
  c.toNat == 32 || c.toNat == 9 || c.toNat == 10 || c.toNat == 13

/-- Modelled from the spec: helper of the missing engine.
Characters a JSON number is made of. -/
def isNumberChar (c : Char) : Bool :=
  c.isDigit || c == '-' || c == '+' || c == '.' || c == 'e' || c == 'E'

/-- Modelled from the spec: the missing lexer's whitespace skip; returns the
input from its first non-whitespace character on. -/
def skipWs : List Char → List Char
  | [] => []
  | c :: r => if isWs c then skipWs r else c :: r

/-- Modelled from the spec: the missing lexer's skip of a string, honouring
backslash-escaped quote characters.  The input starts after the opening quote
(`esc` tells that the previous character was an unescaped backslash); the
result is the input after the closing quote. -/
def skipString : Bool → List Char → Except EvalError (List Char)
  | _, [] => Except.error EvalError.UnexpectedEndOfInput
  | true, _ :: r => skipString false r
  | false, c :: r =>
    if c = dquote then Except.ok r
    else if c = backslash then skipString true r
    else skipString false r

/-- Modelled from the spec: helper of the missing engine.
Where the bracket scanner is: between tokens, inside a string, or right
after a backslash inside a string. -/
inductive ScanMode where
  | plain
  | inString
  | escaped
  deriving DecidableEq, Repr

/-- Modelled from the spec: the missing lexer's search for the matching close
bracket, honouring string escaping and nested-bracket depth.  The input starts
after an opening bracket; `depth` counts the brackets opened since and not yet
closed; the result is the input after the matching close bracket. -/
def skipNested : ScanMode → Nat → List Char → Except EvalError (List Char)
  | _, _, [] => Except.error EvalError.UnexpectedEndOfInput
  | ScanMode.escaped, depth, _ :: r => skipNested ScanMode.inString depth r
  | ScanMode.inString, depth, c :: r =>
    if c = backslash then skipNested ScanMode.escaped depth r
    else if c = dquote then skipNested ScanMode.plain depth r
    else skipNested ScanMode.inString depth r
  | ScanMode.plain, depth, c :: r =>
    if c = dquote then skipNested ScanMode.inString depth r
    else if c = '{' ∨ c = '[' then skipNested ScanMode.plain (depth + 1) r
    else if c = '}' ∨ c = ']' then
      match depth with
      | 0 => Except.ok r
      | d + 1 => skipNested ScanMode.plain d r
    else skipNested ScanMode.plain depth r

/-- Modelled from the spec: the missing lexer's skip of one of the words
`true`, `false`, `null`; a truncated word is `UnexpectedEndOfInput`, a wrong
character `InvalidByte`. -/
def skipWord : List Char → List Char → Except EvalError (List Char)
  | [], r => Except.ok r
  | _ :: _, [] => Except.error EvalError.UnexpectedEndOfInput
  | w :: ws, c :: r => if c = w then skipWord ws r else Except.error EvalError.InvalidByte

/-- Modelled from the spec: the missing lexer's skip of a number; returns the
input from the first character that cannot belong to a number on. -/
def skipNumber : List Char → List Char
  | [] => []
  | c :: r => if isNumberChar c then skipNumber r else c :: r

/-- Modelled from the spec: the missing lexer's `classify`, the kind of value
that begins at the first character of the input. -/
def classify : List Char → Except EvalError Kind
  | [] => Except.error EvalError.UnexpectedEndOfInput
  | c :: _ =>
    if c = '{' then Except.ok Kind.object
    else if c = '[' then Except.ok Kind.array
    else if c = dquote then Except.ok Kind.string
    else if c = '-' ∨ c.isDigit then Except.ok Kind.number
    else if c = 't' ∨ c = 'f' then Except.ok Kind.boolean
    else if c = 'n' then Except.ok Kind.null
    else Except.error EvalError.InvalidByte

/-- Modelled from the spec: the missing lexer's `skip_value`, which advances
past a complete value of any kind; the input starts at the first character of
the value and the result is the input after the value. -/
def skipValue : List Char → Except EvalError (List Char)
  | [] => Except.error EvalError.UnexpectedEndOfInput
  | c :: r =>
    if c = '{' ∨ c = '[' then skipNested ScanMode.plain 0 r
    else if c = dquote then skipString false r
    else if c = '-' ∨ c.isDigit then Except.ok (skipNumber r)
    else if c = 't' then skipWord ['r', 'u', 'e'] r
    else if c = 'f' then skipWord ['a', 'l', 's', 'e'] r
    else if c = 'n' then skipWord ['u', 'l', 'l'] r
    else Except.error EvalError.InvalidByte

/-- Modelled from the spec: helper of the missing engine.
The bytes a span denotes. -/
def slice (buf : List Char) (sp : Span) : List Char :=
  (buf.drop sp.start).take (sp.stop - sp.start)

/-- Modelled from the spec: the element spans of an array of the missing
evaluator, in index order.  The input starts at the first character of an
element; `total` is the length of the buffer, so that `total` minus the length
of the remaining input is an offset. -/
def elementsFrom (total : Nat) : Nat → List Char → Except EvalError (List Span)
  | 0, _ => Except.error EvalError.UnexpectedEndOfInput
  | fuel + 1, s =>
    match skipValue s with
    | Except.error e => Except.error e
    | Except.ok r =>
      match skipWs r with
      | [] => Except.error EvalError.UnexpectedEndOfInput
      | c :: r2 =>
        if c = ',' then
          match elementsFrom total fuel (skipWs r2) with
          | Except.error e => Except.error e
          | Except.ok more => Except.ok (⟨total - s.length, total - r.length⟩ :: more)
        else if c = ']' then Except.ok [⟨total - s.length, total - r.length⟩]
        else Except.error EvalError.InvalidByte

/-- Modelled from the spec: the direct elements of the array a span denotes. -/
def elements (buf : List Char) (sp : Span) : Except EvalError (List Span) :=
  match buf.drop sp.start with
  | [] => Except.error EvalError.UnexpectedEndOfInput
  | _ :: r =>
    match skipWs r with
    | [] => Except.error EvalError.UnexpectedEndOfInput
    | c :: r2 =>
      if c = ']' then Except.ok []
      else elementsFrom buf.length (r.length + 1) (c :: r2)

/-- Modelled from the spec: the direct members of an object of the missing
evaluator, in key-appearance order, each as the span of the raw key bytes
(between the quotes) and the span of the value.  The input starts where the
opening quote of a key is expected. -/
def membersFrom (total : Nat) : Nat → List Char → Except EvalError (List (Span × Span))
  | 0, _ => Except.error EvalError.UnexpectedEndOfInput
  | _ + 1, [] => Except.error EvalError.UnexpectedEndOfInput
  | fuel + 1, q :: afterQuote =>
    if q ≠ dquote then Except.error EvalError.InvalidByte
    else
      match skipString false afterQuote with
      | Except.error e => Except.error e
      | Except.ok afterKey =>
        match skipWs afterKey with
        | [] => Except.error EvalError.UnexpectedEndOfInput
        | c :: r =>
          if c ≠ ':' then Except.error EvalError.InvalidByte
          else
            match skipValue (skipWs r) with
            | Except.error e => Except.error e
            | Except.ok afterValue =>
              let member : Span × Span :=
                (⟨total - afterQuote.length, total - afterKey.length - 1⟩,
                 ⟨total - (skipWs r).length, total - afterValue.length⟩)
              match skipWs afterValue with
              | [] => Except.error EvalError.UnexpectedEndOfInput
              | c2 :: r2 =>
                if c2 = ',' then
                  match membersFrom total fuel (skipWs r2) with
                  | Except.error e => Except.error e
                  | Except.ok more => Except.ok (member :: more)
                else if c2 = '}' then Except.ok [member]
                else Except.error EvalError.InvalidByte

/-- Modelled from the spec: the direct members of the object a span denotes. -/
def members (buf : List Char) (sp : Span) : Except EvalError (List (Span × Span)) :=
  match buf.drop sp.start with
  | [] => Except.error EvalError.UnexpectedEndOfInput
  | _ :: r =>
    match skipWs r with
    | [] => Except.error EvalError.UnexpectedEndOfInput
    | c :: r2 =>
      if c = '}' then Except.ok []
      else membersFrom buf.length (r.length + 1) (c :: r2)

/-- Modelled from the spec: the missing lexer's `find_key`, which scans the
direct members of an object and returns the span of the value of the first
member whose raw key bytes equal `name`. -/
def findKey (buf : List Char) (sp : Span) (name : List Char) : Except EvalError (Option Span) :=
  match members buf sp with
  | Except.error e => Except.error e
  | Except.ok ms => Except.ok ((ms.find? (fun m => slice buf m.1 = name)).map Prod.snd)

/-- Modelled from the spec: the direct children of a candidate of the missing
evaluator: the member values of an object in key-appearance order, the
elements of an array in index order, nothing for a scalar. -/
def children (buf : List Char) (sp : Span) : Except EvalError (List Span) :=
  match classify (buf.drop sp.start) with
  | Except.error e => Except.error e
  | Except.ok Kind.object =>
    match members buf sp with
    | Except.error e => Except.error e
    | Except.ok ms => Except.ok (ms.map Prod.snd)
  | Except.ok Kind.array => elements buf sp
  | Except.ok _ => Except.ok []


/-! ### Data model of paths -/

/-- Modelled from the spec: helper of the missing engine.
Number written in decimal: `mant` times ten to the power `exp`. -/
structure Num where
  mant : Int
  exp : Int
  deriving DecidableEq, Repr

/-- Modelled from the spec: the literal operands of the missing engine's filter
predicates (number, string, boolean, null); a string is held decoded. -/
inductive Literal where
  | number (n : Num)
  | string (text : List Char)
  | boolean (b : Bool)
  | null
  deriving DecidableEq, Repr

/-- Modelled from the spec: the comparison operators of the missing engine's
filter predicates: `==`, `!=`, `<`, `<=`, `>`, `>=`, `=~`. -/
inductive CmpOp where
  | eq
  | ne
  | lt
  | le
  | gt
  | ge
  | re
  deriving DecidableEq, Repr

/-- Modelled from the spec: a member of a `Union` segment of the missing
engine, an index or a field name. -/
inductive UnionItem where
  | index (i : Int)
  | field (name : String)
  deriving DecidableEq, Repr

mutual
/-- Modelled from the spec: the `Segment` of the missing engine, one step of a
parsed path. -/
inductive Segment where
  | Field (name : String)
  | Wildcard
  | Index (i : Int)
  | Slice (start stop step : Option Int)
  | Union (items : List UnionItem)
  | RecursiveDescent
  | Filter (p : Predicate)
/-- Modelled from the spec: the predicate expression of a `Filter` segment of
the missing engine, a boolean expression tree over comparisons. -/
inductive Predicate where
  | cmp (lhs : Operand) (op : CmpOp) (rhs : Operand)
  | and (a b : Predicate)
  | or (a b : Predicate)
  | not (a : Predicate)
/-- Modelled from the spec: an operand of a comparison of the missing engine, a
path relative to the current candidate (`@`) or a literal. -/
inductive Operand where
  | path (segs : List Segment)
  | lit (l : Literal)
end

/-! ### Path parser -/

/-- Modelled from the spec: helper of the missing engine.
The longest run of digits at the start of the input, and the rest. -/
def takeDigits : List Char → List Char × List Char
  | [] => ([], [])
  | c :: r => if c.isDigit then ((c :: (takeDigits r).1), (takeDigits r).2) else ([], c :: r)

/-- Modelled from the spec: helper of the missing engine.
The value of a run of decimal digits. -/
def digitsValue (ds : List Char) : Nat :=
  ds.foldl (fun acc c => 10 * acc + (c.toNat - 48)) 0

/-- Modelled from the spec: helper of the missing engine.
A non-empty run of digits at the start of the input: its value, its length
and the rest. -/
def parseDigits (s : List Char) : Option (Nat × Nat × List Char) :=
  match takeDigits s with
  | ([], _) => none
  | (d :: ds, r) => some (digitsValue (d :: ds), (d :: ds).length, r)

/-- Modelled from the spec: the `integer` of the path grammar, an optional
minus sign and digits. -/
def parseInteger : List Char → Option (Int × List Char)
  | [] => none
  | c :: r =>
    if c = '-' then
      match parseDigits r with
      | none => none
      | some (v, _, r2) => some (-(v : Int), r2)
    else
      match parseDigits (c :: r) with
      | none => none
      | some (v, _, r2) => some ((v : Int), r2)

/-- Modelled from the spec: helper of the missing engine.
The exponent part of a number (`e` or `E`, an optional sign, digits), zero
when there is none. -/
def parseExponent : List Char → Option (Int × List Char)
  | [] => some (0, [])
  | c :: r =>
    if c = 'e' ∨ c = 'E' then
      match r with
      | [] => none
      | sgn :: r2 =>
        if sgn = '-' then
          match parseDigits r2 with
          | none => none
          | some (v, _, r3) => some (-(v : Int), r3)
        else if sgn = '+' then
          match parseDigits r2 with
          | none => none
          | some (v, _, r3) => some ((v : Int), r3)
        else
          match parseDigits (sgn :: r2) with
          | none => none
          | some (v, _, r3) => some ((v : Int), r3)
    else some (0, c :: r)

/-- Modelled from the spec: helper of the missing engine.
The fraction part of a number (a dot and digits): value and number of the
digits, zero of both when there is none. -/
def parseFraction : List Char → Option (Nat × Nat × List Char)
  | [] => some (0, 0, [])
  | c :: r => if c = '.' then parseDigits r else some (0, 0, c :: r)

/-- Modelled from the spec: the `number` of the path grammar and of the
documents, a JSON number literal (optional minus sign, digits, optional
fraction, optional exponent) with its numeric value. -/
def parseNumber (s : List Char) : Option (Num × List Char) :=
  let negative := s.head? = some '-'
  match parseDigits (if negative then s.tail else s) with
  | none => none
  | some (ip, _, r1) =>
    match parseFraction r1 with
    | none => none
    | some (fp, flen, r2) =>
      match parseExponent r2 with
      | none => none
      | some (e, r3) =>
        let mag : Int := ((ip * 10 ^ flen + fp : Nat) : Int)
        some ({ mant := if negative then -mag else mag, exp := e - (flen : Int) }, r3)

/-- Modelled from the spec: helper of the missing engine.
The raw contents of a string literal up to its unescaped closing quote, and
the input after that quote; the input starts after the opening quote. -/
def takeString : Bool → List Char → Option (List Char × List Char)
  | _, [] => none
  | true, c :: r =>
    match takeString false r with
    | none => none
    | some (raw, rest) => some (c :: raw, rest)
  | false, c :: r =>
    if c = dquote then some ([], r)
    else
      match takeString (decide (c = backslash)) r with
      | none => none
      | some (raw, rest) => some (c :: raw, rest)

/-- Modelled from the spec: helper of the missing engine.
The value of a hexadecimal digit. -/
def hexValue (c : Char) : Option Nat :=
  if c.isDigit then some (c.toNat - 48)
  else if 97 ≤ c.toNat ∧ c.toNat ≤ 102 then some (c.toNat - 87)
  else if 65 ≤ c.toNat ∧ c.toNat ≤ 70 then some (c.toNat - 55)
  else none

/-- Modelled from the spec: helper of the missing engine.
The value of four hexadecimal digits. -/
def hex4 (a b c d : Char) : Option Nat :=
  match hexValue a, hexValue b, hexValue c, hexValue d with
  | some x, some y, some z, some w => some (((x * 16 + y) * 16 + z) * 16 + w)
  | _, _, _, _ => none

/-- Modelled from the spec: helper of the missing engine.
The UTF-8 bytes of a code point. -/
def utf8Bytes (n : Nat) : List Char :=
  if n < 128 then [Char.ofNat n]
  else if n < 2048 then [Char.ofNat (192 + n / 64), Char.ofNat (128 + n % 64)]
  else if n < 65536 then
    [Char.ofNat (224 + n / 4096), Char.ofNat (128 + n / 64 % 64), Char.ofNat (128 + n % 64)]
  else
    [Char.ofNat (240 + n / 262144), Char.ofNat (128 + n / 4096 % 64),
     Char.ofNat (128 + n / 64 % 64), Char.ofNat (128 + n % 64)]

/-- Modelled from the spec: helper of the missing engine.
The character a one-letter escape stands for. -/
def simpleEscape (e : Char) : Option Char :=
  if e = dquote then some dquote
  else if e = backslash then some backslash
  else if e = '/' then some '/'
  else if e = 'b' then some (Char.ofNat 8)
  else if e = 'f' then some (Char.ofNat 12)
  else if e = 'n' then some (Char.ofNat 10)
  else if e = 'r' then some (Char.ofNat 13)
  else if e = 't' then some (Char.ofNat 9)
  else none

/-- Modelled from the spec: helper of the missing engine.
The bytes owed for a high surrogate that no low surrogate followed: those
of U+FFFD. -/
def flushPending (pending : Option Nat) : List Char :=
  match pending with
  | none => []
  | some _ => utf8Bytes 65533

/-- Modelled from the spec: helper of the missing engine.
Decoding of the raw contents of a string; `pending` is a high surrogate
whose `\u` escape was the last thing read. -/
def decodeFrom : Option Nat → List Char → Option (List Char)
  | pending, [] => some (flushPending pending)
  | pending, c :: r =>
    if c ≠ backslash then (decodeFrom none r).map (fun t => flushPending pending ++ c :: t)
    else
      match r with
      | [] => none
      | e :: r2 =>
        if e ≠ 'u' then
          match simpleEscape e with
          | none => none
          | some x => (decodeFrom none r2).map (fun t => flushPending pending ++ x :: t)
        else
          match r2 with
          | h1 :: h2 :: h3 :: h4 :: r3 =>
            match hex4 h1 h2 h3 h4 with
            | none => none
            | some v =>
              if 55296 ≤ v ∧ v ≤ 56319 then
                (decodeFrom (some v) r3).map (fun t => flushPending pending ++ t)
              else if 56320 ≤ v ∧ v ≤ 57343 then
                match pending with
                | some hi =>
                  (decodeFrom none r3).map
                    (fun t => utf8Bytes (65536 + (hi - 55296) * 1024 + (v - 56320)) ++ t)
                | none => (decodeFrom none r3).map (fun t => utf8Bytes 65533 ++ t)
              else (decodeFrom none r3).map (fun t => flushPending pending ++ utf8Bytes v ++ t)
          | _ => none

/-- Modelled from the spec: decoding of the raw contents of a string to its
text, as the missing engine does before it compares strings.  The text is held
as its UTF-8 bytes; escapes are replaced by what they stand for, a surrogate
pair by its code point, an unpaired surrogate by U+FFFD; an escape that JSON
does not define has no decoding. -/
def decodeString (raw : List Char) : Option (List Char) :=
  decodeFrom none raw

/-- Modelled from the spec: helper of the missing engine.
Characters of an unquoted field name: `[A-Za-z0-9_]`. -/
def isIdentChar (c : Char) : Bool :=
  c.isAlphanum || c == '_'

/-- Modelled from the spec: helper of the missing engine.
The longest run of field-name characters at the start of the input, and the rest. -/
def takeIdent : List Char → List Char × List Char
  | [] => ([], [])
  | c :: r => if isIdentChar c then ((c :: (takeIdent r).1), (takeIdent r).2) else ([], c :: r)

/-- Modelled from the spec: the `field` of the path grammar, an identifier or
`*`.  Outside a filter a name with a character outside `[A-Za-z0-9_]` is the
parse error `InvalidFieldName`. -/
def parseField (inFilter : Bool) : List Char → Except ParseError (Segment × List Char)
  | [] => Except.error ParseError.InvalidFieldName
  | c :: r =>
    if c = '*' then Except.ok (Segment.Wildcard, r)
    else
      match takeIdent (c :: r) with
      | ([], _) => Except.error ParseError.InvalidFieldName
      | (n :: ns, []) => Except.ok (Segment.Field (String.mk (n :: ns)), [])
      | (n :: ns, x :: rest) =>
        if inFilter ∨ x = '.' ∨ x = '[' then
          Except.ok (Segment.Field (String.mk (n :: ns)), x :: rest)
        else Except.error ParseError.InvalidFieldName

/-- Modelled from the spec: helper of the missing engine.
The closing `]` of a bracket expression. -/
def closeBracket (seg : Segment) : List Char → Except ParseError (Segment × List Char)
  | [] => Except.error ParseError.UnterminatedBracket
  | c :: r => if c = ']' then Except.ok (seg, r) else Except.error ParseError.UnexpectedToken

/-- Modelled from the spec: one member of a union of the path grammar, an index
or a string literal. -/
def parseUnionItem : List Char → Except ParseError (UnionItem × List Char)
  | [] => Except.error ParseError.UnterminatedBracket
  | c :: r =>
    if c = dquote then
      match takeString false r with
      | none => Except.error ParseError.UnterminatedBracket
      | some (raw, r2) =>
        match decodeString raw with
        | none => Except.error ParseError.UnexpectedToken
        | some text => Except.ok (UnionItem.field (String.mk text), r2)
    else
      match parseInteger (c :: r) with
      | none => Except.error ParseError.UnexpectedToken
      | some (i, r2) => Except.ok (UnionItem.index i, r2)

/-- Modelled from the spec: the members of a union after the first, up to the
closing bracket; the input starts at a `,` or at the `]`. -/
def parseUnionTail : Nat → List Char → Except ParseError (List UnionItem × List Char)
  | 0, _ => Except.error ParseError.UnexpectedToken
  | _ + 1, [] => Except.error ParseError.UnterminatedBracket
  | fuel + 1, c :: r =>
    if c = ']' then Except.ok ([], r)
    else if c = ',' then
      match parseUnionItem r with
      | Except.error e => Except.error e
      | Except.ok (item, r2) =>
        match parseUnionTail fuel r2 with
        | Except.error e => Except.error e
        | Except.ok (more, r3) => Except.ok (item :: more, r3)
    else Except.error ParseError.UnexpectedToken

/-- Modelled from the spec: helper of the missing engine.
What follows the first member of a bracket expression: the closing bracket
(the member alone is a field or an index) or further members (a union). -/
def parseAfterItem (first : UnionItem) (s : List Char) : Except ParseError (Segment × List Char) :=
  match parseUnionTail (s.length + 1) s with
  | Except.error e => Except.error e
  | Except.ok ([], r) =>
    match first with
    | UnionItem.index i => Except.ok (Segment.Index i, r)
    | UnionItem.field name => Except.ok (Segment.Field name, r)
  | Except.ok (m :: more, r) => Except.ok (Segment.Union (first :: m :: more), r)

/-- Modelled from the spec: helper of the missing engine.
An optional integer at the start of the input. -/
def parseOptInteger (s : List Char) : Option Int × List Char :=
  match parseInteger s with
  | none => (none, s)
  | some (i, r) => (some i, r)

/-- Modelled from the spec: the `slice` of the path grammar after its optional
start, from the first `:` on; a step of zero is the parse error `EmptyStep`. -/
def parseSliceRest (start : Option Int) (afterColon : List Char) :
    Except ParseError (Segment × List Char) :=
  let stop := parseOptInteger afterColon
  match stop.2 with
  | [] => Except.error ParseError.UnterminatedBracket
  | c :: r =>
    if c = ':' then
      let step := parseOptInteger r
      if step.1 = some 0 then Except.error ParseError.EmptyStep
      else closeBracket (Segment.Slice start stop.1 step.1) step.2
    else closeBracket (Segment.Slice start stop.1 none) (c :: r)

/-- Modelled from the spec: the bracket expressions of the path grammar that
hold no filter and no `*`: index, slice, union, string literal. -/
def parsePlainBracket (s : List Char) : Except ParseError (Segment × List Char) :=
  match s with
  | [] => Except.error ParseError.UnterminatedBracket
  | c :: r =>
    if c = dquote then
      match parseUnionItem (c :: r) with
      | Except.error e => Except.error e
      | Except.ok (item, r2) => parseAfterItem item r2
    else
      match parseOptInteger (c :: r) with
      | (start, []) =>
        match start with
        | none => Except.error ParseError.UnexpectedToken
        | some _ => Except.error ParseError.UnterminatedBracket
      | (start, x :: r2) =>
        if x = ':' then parseSliceRest start r2
        else
          match start with
          | none => Except.error ParseError.UnexpectedToken
          | some i => parseAfterItem (UnionItem.index i) (x :: r2)

/-- Modelled from the spec: the comparison operators of the path grammar. -/
def parseCmpOp : List Char → Except ParseError (CmpOp × List Char)
  | [] => Except.error ParseError.UnterminatedFilter
  | [_] => Except.error ParseError.UnterminatedFilter
  | a :: b :: r =>
    if a = '=' ∧ b = '=' then Except.ok (CmpOp.eq, r)
    else if a = '!' ∧ b = '=' then Except.ok (CmpOp.ne, r)
    else if a = '<' ∧ b = '=' then Except.ok (CmpOp.le, r)
    else if a = '>' ∧ b = '=' then Except.ok (CmpOp.ge, r)
    else if a = '=' ∧ b = '~' then Except.ok (CmpOp.re, r)
    else if a = '<' then Except.ok (CmpOp.lt, b :: r)
    else if a = '>' then Except.ok (CmpOp.gt, b :: r)
    else Except.error ParseError.UnexpectedToken

/-- Modelled from the spec: the literal operands of the path grammar: number,
string literal, `true`, `false`, `null`. -/
def parseLiteral : List Char → Except ParseError (Literal × List Char)
  | [] => Except.error ParseError.UnterminatedFilter
  | c :: r =>
    if c = dquote then
      match takeString false r with
      | none => Except.error ParseError.UnterminatedFilter
      | some (raw, r2) =>
        match decodeString raw with
        | none => Except.error ParseError.UnexpectedToken
        | some text => Except.ok (Literal.string text, r2)
    else if c = '-' ∨ c.isDigit then
      match parseNumber (c :: r) with
      | none => Except.error ParseError.UnexpectedToken
      | some (n, r2) => Except.ok (Literal.number n, r2)
    else
      match c :: r with
      | 't' :: 'r' :: 'u' :: 'e' :: r2 => Except.ok (Literal.boolean true, r2)
      | 'f' :: 'a' :: 'l' :: 's' :: 'e' :: r2 => Except.ok (Literal.boolean false, r2)
      | 'n' :: 'u' :: 'l' :: 'l' :: r2 => Except.ok (Literal.null, r2)
      | _ => Except.error ParseError.UnexpectedToken

mutual
/-- Modelled from the spec: `segment*` of the path grammar.  Outside a filter
the segments run to the end of the query; inside a filter (the path after `@`)
they run up to the first character that starts no segment. -/
def parseSegments : Nat → Bool → List Char → Except ParseError (List Segment × List Char)
  | 0, _, _ => Except.error ParseError.UnexpectedToken
  | _ + 1, _, [] => Except.ok ([], [])
  | fuel + 1, inFilter, c :: r =>
    if c = '.' then
      match r with
      | [] => Except.error ParseError.InvalidFieldName
      | c2 :: r2 =>
        if c2 = '.' then
          match parseField inFilter r2 with
          | Except.error e => Except.error e
          | Except.ok (seg, r3) =>
            match parseSegments fuel inFilter r3 with
            | Except.error e => Except.error e
            | Except.ok (more, r4) => Except.ok (Segment.RecursiveDescent :: seg :: more, r4)
        else
          match parseField inFilter (c2 :: r2) with
          | Except.error e => Except.error e
          | Except.ok (seg, r3) =>
            match parseSegments fuel inFilter r3 with
            | Except.error e => Except.error e
            | Except.ok (more, r4) => Except.ok (seg :: more, r4)
    else if c = '[' then
      match parseBracket fuel r with
      | Except.error e => Except.error e
      | Except.ok (seg, r3) =>
        match parseSegments fuel inFilter r3 with
        | Except.error e => Except.error e
        | Except.ok (more, r4) => Except.ok (seg :: more, r4)
    else if inFilter then Except.ok ([], c :: r)
    else Except.error ParseError.UnexpectedToken
/-- Modelled from the spec: `bracketexpr "]"` of the path grammar; the input
starts after the `[`.  An empty bracket is a parse error. -/
def parseBracket : Nat → List Char → Except ParseError (Segment × List Char)
  | 0, _ => Except.error ParseError.UnexpectedToken
  | _ + 1, [] => Except.error ParseError.UnterminatedBracket
  | fuel + 1, c :: r =>
    if c = ']' then Except.error ParseError.UnexpectedToken
    else if c = '*' then closeBracket Segment.Wildcard r
    else if c = '?' then
      match r with
      | [] => Except.error ParseError.UnterminatedFilter
      | p :: r2 =>
        if p ≠ '(' then Except.error ParseError.UnexpectedToken
        else
          match parsePredicate fuel r2 with
          | Except.error e => Except.error e
          | Except.ok (_, []) => Except.error ParseError.UnterminatedFilter
          | Except.ok (pred, x :: r3) =>
            if x = ')' then closeBracket (Segment.Filter pred) r3
            else Except.error ParseError.UnexpectedToken
    else parsePlainBracket (c :: r)
/-- Modelled from the spec: `predicate` of the path grammar: a chain of
comparisons joined by `&&` and `||`, read left to right, or `!` and a predicate. -/
def parsePredicate : Nat → List Char → Except ParseError (Predicate × List Char)
  | 0, _ => Except.error ParseError.UnexpectedToken
  | _ + 1, [] => Except.error ParseError.UnterminatedFilter
  | fuel + 1, c :: r =>
    if c = '!' then
      match parsePredicate fuel r with
      | Except.error e => Except.error e
      | Except.ok (p, r2) => Except.ok (Predicate.not p, r2)
    else
      match parseComparison fuel (c :: r) with
      | Except.error e => Except.error e
      | Except.ok (p, r2) => parsePredicateTail fuel p r2
/-- Modelled from the spec: helper of the missing engine.
The part of a predicate after its first comparisons `acc`. -/
def parsePredicateTail : Nat → Predicate → List Char → Except ParseError (Predicate × List Char)
  | 0, _, _ => Except.error ParseError.UnexpectedToken
  | _ + 1, _, [] => Except.error ParseError.UnterminatedFilter
  | _ + 1, acc, [c] => Except.ok (acc, [c])
  | fuel + 1, acc, a :: b :: r =>
    if a = '&' ∧ b = '&' then
      match parseComparison fuel r with
      | Except.error e => Except.error e
      | Except.ok (p, r2) => parsePredicateTail fuel (Predicate.and acc p) r2
    else if a = '|' ∧ b = '|' then
      match parseComparison fuel r with
      | Except.error e => Except.error e
      | Except.ok (p, r2) => parsePredicateTail fuel (Predicate.or acc p) r2
    else Except.ok (acc, a :: b :: r)
/-- Modelled from the spec: `comparison` of the path grammar. -/
def parseComparison : Nat → List Char → Except ParseError (Predicate × List Char)
  | 0, _ => Except.error ParseError.UnexpectedToken
  | fuel + 1, s =>
    match parseOperand fuel s with
    | Except.error e => Except.error e
    | Except.ok (lhs, r) =>
      match parseCmpOp r with
      | Except.error e => Except.error e
      | Except.ok (op, r2) =>
        match parseOperand fuel r2 with
        | Except.error e => Except.error e
        | Except.ok (rhs, r3) => Except.ok (Predicate.cmp lhs op rhs, r3)
/-- Modelled from the spec: `operand` of the path grammar: `@` and a relative
path, or a literal. -/
def parseOperand : Nat → List Char → Except ParseError (Operand × List Char)
  | 0, _ => Except.error ParseError.UnexpectedToken
  | _ + 1, [] => Except.error ParseError.UnterminatedFilter
  | fuel + 1, c :: r =>
    if c = '@' then
      match parseSegments fuel true r with
      | Except.error e => Except.error e
      | Except.ok (segs, r2) => Except.ok (Operand.path segs, r2)
    else
      match parseLiteral (c :: r) with
      | Except.error e => Except.error e
      | Except.ok (l, r2) => Except.ok (Operand.lit l, r2)
end

/-- Modelled from the spec: the missing path parser's `parse`, for the grammar
`path := "$" segment*`.  The recursion budget is six calls for every character
after the `$`, and six more. -/
def parse (query : List Char) : Except ParseError (List Segment) :=
  match query with
  | [] => Except.error ParseError.UnexpectedToken
  | c :: r =>
    if c = '$' then
      match parseSegments (6 * r.length + 6) false r with
      | Except.error e => Except.error e
      | Except.ok (segs, _) => Except.ok segs
    else Except.error ParseError.UnexpectedToken


/-! ### Evaluator -/

/-- Modelled from the spec: helper of the missing engine.
The integer `a.mant * 10 ^ (a.exp - e)`, for an exponent `e` not above `a.exp`. -/
def Num.scaled (a : Num) (e : Int) : Int :=
  a.mant * 10 ^ (a.exp - e).toNat

/-- Modelled from the spec: helper of the missing engine.
Numeric comparison of two decimal numbers. -/
def Num.compare (a b : Num) : Ordering :=
  Ord.compare (a.scaled (min a.exp b.exp)) (b.scaled (min a.exp b.exp))

/-- Modelled from the spec: helper of the missing engine.
Lexicographic comparison of two texts. -/
def compareText : List Char → List Char → Ordering
  | [], [] => Ordering.eq
  | [], _ :: _ => Ordering.lt
  | _ :: _, [] => Ordering.gt
  | a :: as, b :: bs =>
    if a.toNat < b.toNat then Ordering.lt
    else if b.toNat < a.toNat then Ordering.gt
    else compareText as bs

/-- Modelled from the spec: helper of the missing engine.
Whether an ordering satisfies one of the six order comparisons; a regular
expression match is not an order comparison. -/
def CmpOp.holds (op : CmpOp) (o : Ordering) : Bool :=
  match op with
  | CmpOp.eq => o == Ordering.eq
  | CmpOp.ne => o != Ordering.eq
  | CmpOp.lt => o == Ordering.lt
  | CmpOp.le => o != Ordering.gt
  | CmpOp.gt => o == Ordering.gt
  | CmpOp.ge => o != Ordering.lt
  | CmpOp.re => false

/-- Modelled from the spec: comparison of two resolved operands in the missing
evaluator.  Numbers compare numerically, strings as decoded text, `null`,
`true` and `false` by identity; a comparison of values of different types is
false; an operand that did not resolve to one scalar (`none`) makes the
comparison false.  `rx text pattern` is the regular-expression match of `=~`. -/
def compareOperands (rx : List Char → List Char → Bool) (op : CmpOp) :
    Option Literal → Option Literal → Bool
  | some (Literal.number x), some (Literal.number y) => op.holds (x.compare y)
  | some (Literal.string x), some (Literal.string y) =>
    if op = CmpOp.re then rx x y else op.holds (compareText x y)
  | some (Literal.boolean x), some (Literal.boolean y) =>
    if op = CmpOp.eq then x == y else if op = CmpOp.ne then x != y else false
  | some Literal.null, some Literal.null => decide (op = CmpOp.eq)
  | _, _ => false

/-- Modelled from the spec: the scalar a span denotes in the missing evaluator:
a number by its numeric value, a string by its decoded text, `true`, `false`,
`null`; an object, an array or a malformed scalar is no scalar. -/
def scalarAt (buf : List Char) (sp : Span) : Option Literal :=
  match classify (buf.drop sp.start) with
  | Except.ok Kind.number =>
    match parseNumber (slice buf sp) with
    | some (n, []) => some (Literal.number n)
    | _ => none
  | Except.ok Kind.string =>
    (decodeString (slice buf ⟨sp.start + 1, sp.stop - 1⟩)).map Literal.string
  | Except.ok Kind.boolean =>
    if slice buf sp = ['t', 'r', 'u', 'e'] then some (Literal.boolean true)
    else if slice buf sp = ['f', 'a', 'l', 's', 'e'] then some (Literal.boolean false)
    else none
  | Except.ok Kind.null =>
    if slice buf sp = ['n', 'u', 'l', 'l'] then some Literal.null else none
  | _ => none

/-- Modelled from the spec: helper of the missing engine.
The candidates a function yields for each candidate of a worklist, in order. -/
def flatMapSpans (f : Span → Except EvalError (List Span)) :
    List Span → Except EvalError (List Span)
  | [] => Except.ok []
  | c :: cs =>
    match f c with
    | Except.error e => Except.error e
    | Except.ok here =>
      match flatMapSpans f cs with
      | Except.error e => Except.error e
      | Except.ok more => Except.ok (here ++ more)

/-- Modelled from the spec: helper of the missing engine.
The candidates of a worklist for which a test is true, in order. -/
def filterSpans (f : Span → Except EvalError Bool) :
    List Span → Except EvalError (List Span)
  | [] => Except.ok []
  | c :: cs =>
    match f c with
    | Except.error e => Except.error e
    | Except.ok keep =>
      match filterSpans f cs with
      | Except.error e => Except.error e
      | Except.ok more => Except.ok (if keep then c :: more else more)

/-- Modelled from the spec: the `Field(name)` step of the missing evaluator: the
candidate must classify as an object and have the key; other candidates are
dropped. -/
def applyField (buf : List Char) (name : String) (c : Span) : Except EvalError (List Span) :=
  match classify (buf.drop c.start) with
  | Except.error e => Except.error e
  | Except.ok Kind.object =>
    match findKey buf c name.toList with
    | Except.error e => Except.error e
    | Except.ok found => Except.ok found.toList
  | Except.ok _ => Except.ok []

/-- Modelled from the spec: the `Index(i)` step of the missing evaluator: the
candidate must be an array; a negative index counts from the end; an index out
of range drops the candidate. -/
def applyIndex (buf : List Char) (i : Int) (c : Span) : Except EvalError (List Span) :=
  match classify (buf.drop c.start) with
  | Except.error e => Except.error e
  | Except.ok Kind.array =>
    match elements buf c with
    | Except.error e => Except.error e
    | Except.ok es =>
      let j : Int := if i < 0 then (es.length : Int) + i else i
      if j < 0 then Except.ok [] else Except.ok (es.get? j.toNat).toList
  | Except.ok _ => Except.ok []

/-- Modelled from the spec: helper of the missing engine.
An explicit slice bound for an array of length `n`: a negative bound counts
from the end, and the result is clamped to `[0, n]`. -/
def sliceBound (n : Nat) (x : Int) : Int :=
  max 0 (min (n : Int) (if x < 0 then (n : Int) + x else x))

/-- Modelled from the spec: the indices a slice selects in an array of length
`n`, in traversal order.  An omitted start is 0 (the last index for a negative
step), an omitted end the length (-1 for a negative step), an omitted step 1;
with a negative step the elements come reversed. -/
def sliceIndices (n : Nat) (start stop step : Option Int) : List Nat :=
  let st : Int := step.getD 1
  if 0 < st then
    let a : Int := (start.map (sliceBound n)).getD 0
    let b : Int := (stop.map (sliceBound n)).getD (Int.ofNat n)
    List.filter
      (fun (i : Nat) => decide (a ≤ Int.ofNat i ∧ Int.ofNat i < b ∧ (Int.ofNat i - a) % st = 0))
      (List.range n)
  else if st < 0 then
    let a : Int := (start.map (sliceBound n)).getD (Int.ofNat n - 1)
    let b : Int := (stop.map (sliceBound n)).getD (-1)
    List.reverse (List.filter
      (fun (i : Nat) => decide (b < Int.ofNat i ∧ Int.ofNat i ≤ a ∧ (a - Int.ofNat i) % (-st) = 0))
      (List.range n))
  else []

/-- Modelled from the spec: the `Slice` step of the missing evaluator: the
candidate must be an array. -/
def applySlice (buf : List Char) (start stop step : Option Int) (c : Span) :
    Except EvalError (List Span) :=
  match classify (buf.drop c.start) with
  | Except.error e => Except.error e
  | Except.ok Kind.array =>
    match elements buf c with
    | Except.error e => Except.error e
    | Except.ok es => Except.ok ((sliceIndices es.length start stop step).filterMap es.get?)
  | Except.ok _ => Except.ok []

/-- Modelled from the spec: the `Union` step of the missing evaluator: each
member is applied independently to the candidate and the results are
concatenated in the order of the list, duplicates kept. -/
def applyUnion (buf : List Char) (c : Span) : List UnionItem → Except EvalError (List Span)
  | [] => Except.ok []
  | item :: items =>
    match (match item with
      | UnionItem.index i => applyIndex buf i c
      | UnionItem.field name => applyField buf name c) with
    | Except.error e => Except.error e
    | Except.ok here =>
      match applyUnion buf c items with
      | Except.error e => Except.error e
      | Except.ok more => Except.ok (here ++ more)

/-- Modelled from the spec: the nodes of the subtree of a candidate of the
missing evaluator, the candidate itself included, in depth-first pre-order.
The budget `fuel` bounds the nesting depth that is followed. -/
def descend (buf : List Char) : Nat → Span → Except EvalError (List Span)
  | 0, _ => Except.error EvalError.UnexpectedEndOfInput
  | fuel + 1, c =>
    match children buf c with
    | Except.error e => Except.error e
    | Except.ok kids =>
      match flatMapSpans (descend buf fuel) kids with
      | Except.error e => Except.error e
      | Except.ok below => Except.ok (c :: below)

mutual
/-- Modelled from the spec: the missing evaluator's processing of the segments
left to right; each segment maps every candidate of the worklist to zero, one
or many candidates, which form the next worklist.  A `RecursiveDescent` applies
the segment that follows it at every node of the candidate's subtree. -/
def evalSegments (buf : List Char) (rx : List Char → List Char → Bool) :
    List Segment → List Span → Except EvalError (List Span)
  | [], cands => Except.ok cands
  | Segment.RecursiveDescent :: seg :: rest, cands =>
    match flatMapSpans (descend buf (buf.length + 1)) cands with
    | Except.error e => Except.error e
    | Except.ok nodes =>
      match flatMapSpans (applySegment buf rx seg) nodes with
      | Except.error e => Except.error e
      | Except.ok next => evalSegments buf rx rest next
  | seg :: rest, cands =>
    match flatMapSpans (applySegment buf rx seg) cands with
    | Except.error e => Except.error e
    | Except.ok next => evalSegments buf rx rest next
/-- Modelled from the spec: one segment of the missing evaluator applied to one
candidate. -/
def applySegment (buf : List Char) (rx : List Char → List Char → Bool) :
    Segment → Span → Except EvalError (List Span)
  | Segment.Field name, c => applyField buf name c
  | Segment.Wildcard, c => children buf c
  | Segment.Index i, c => applyIndex buf i c
  | Segment.Slice start stop step, c => applySlice buf start stop step c
  | Segment.Union items, c => applyUnion buf c items
  | Segment.RecursiveDescent, c => descend buf (buf.length + 1) c
  | Segment.Filter p, c =>
    match children buf c with
    | Except.error e => Except.error e
    | Except.ok kids => filterSpans (evalPredicate buf rx p) kids
/-- Modelled from the spec: the missing evaluator's evaluation of a predicate
with `@` bound to a child. -/
def evalPredicate (buf : List Char) (rx : List Char → List Char → Bool) :
    Predicate → Span → Except EvalError Bool
  | Predicate.cmp lhs op rhs, c =>
    match resolveOperand buf rx lhs c with
    | Except.error e => Except.error e
    | Except.ok a =>
      match resolveOperand buf rx rhs c with
      | Except.error e => Except.error e
      | Except.ok b => Except.ok (compareOperands rx op a b)
  | Predicate.and a b, c =>
    match evalPredicate buf rx a c with
    | Except.error e => Except.error e
    | Except.ok x =>
      match evalPredicate buf rx b c with
      | Except.error e => Except.error e
      | Except.ok y => Except.ok (x && y)
  | Predicate.or a b, c =>
    match evalPredicate buf rx a c with
    | Except.error e => Except.error e
    | Except.ok x =>
      match evalPredicate buf rx b c with
      | Except.error e => Except.error e
      | Except.ok y => Except.ok (x || y)
  | Predicate.not a, c =>
    match evalPredicate buf rx a c with
    | Except.error e => Except.error e
    | Except.ok x => Except.ok (!x)
/-- Modelled from the spec: the value of an operand of the missing evaluator: a
literal, or the single scalar its relative path resolves to against `@`; a path
that resolves to zero or several values, or to no scalar, gives no value. -/
def resolveOperand (buf : List Char) (rx : List Char → List Char → Bool) :
    Operand → Span → Except EvalError (Option Literal)
  | Operand.lit l, _ => Except.ok (some l)
  | Operand.path segs, c =>
    match evalSegments buf rx segs [c] with
    | Except.error e => Except.error e
    | Except.ok [m] => Except.ok (scalarAt buf m)
    | Except.ok _ => Except.ok none
end

/-- Modelled from the spec: the missing evaluator's `evaluate`.  The worklist
is seeded with the single span of the top-level value, found after skipping
leading whitespace; the candidates left after the last segment are the
MatchSet. -/
def evaluate (buf : List Char) (rx : List Char → List Char → Bool) (segs : List Segment) :
    Except EvalError (List Span) :=
  match skipValue (skipWs buf) with
  | Except.error e => Except.error e
  | Except.ok rest =>
    evalSegments buf rx segs [⟨buf.length - (skipWs buf).length, buf.length - rest.length⟩]

/-! ### Result assembler and the query operation -/

/-- Modelled from the spec: helper of the missing engine.
The raw bytes of the spans, joined by commas. -/
def joinSpans (buf : List Char) : List Span → List Char
  | [] => []
  | [m] => slice buf m
  | m :: rest => slice buf m ++ ',' :: joinSpans buf rest

/-- Modelled from the spec: the missing result assembler's `render`: nothing
for zero matches, the raw bytes of the span for one match, a JSON array literal
of the raw spans for more than one. -/
def render (buf : List Char) : List Span → List Char
  | [] => []
  | [m] => slice buf m
  | m :: m2 :: rest => '[' :: (joinSpans buf (m :: m2 :: rest) ++ [']'])

/-- Modelled from the spec: the missing evaluation API `query(document, path)`:
the path is parsed first, a malformed path fails before evaluation begins; then
the document is evaluated and the matches are rendered. -/
def query (rx : List Char → List Char → Bool) (doc path : List Char) :
    Except Error (List Char) :=
  match parse path with
  | Except.error e => Except.error (Error.parse e)
  | Except.ok segs =>
    match evaluate doc rx segs with
    | Except.error e => Except.error (Error.eval e)
    | Except.ok ms => Except.ok (render doc ms)

/-- Modelled from the spec: the text of an error of the missing engine.  The
spec names the errors and leaves their wording open; the text is the name. -/
def Error.message : Error → String
  | Error.parse ParseError.UnexpectedToken => "UnexpectedToken"
  | Error.parse ParseError.InvalidFieldName => "InvalidFieldName"
  | Error.parse ParseError.EmptyStep => "EmptyStep"
  | Error.parse ParseError.UnterminatedBracket => "UnterminatedBracket"
  | Error.parse ParseError.UnterminatedFilter => "UnterminatedFilter"
  | Error.eval EvalError.UnexpectedEndOfInput => "UnexpectedEndOfInput"
  | Error.eval EvalError.InvalidByte => "InvalidByte"

end Engine


/-! ## The editor on top of the engine -/

/-- Whether `Update` takes its quit branch on a message: the message is a key
that matches the model's quit binding (line 113). -/
def editorModel.quits (m : editorModel) : Msg → Bool
  | Msg.key name => Binding.Matches name m.keymap.quit
  | _ => false

/-- Modelled from the spec: the missing function `jsonslice.Get`, taken to be
the evaluation API of the engine: `query` on the bytes of the document and of
the path, an error given by its text. -/
def engineGet (rx : List Char → List Char → Bool) (doc : ByteSlice) (path : String) :
    Except String ByteSlice :=
  match Engine.query rx doc.toGoString.toList path.toList with
  | Except.error e => Except.error e.message
  | Except.ok out => Except.ok (some (String.mk out))

/-- A widget library together with the engine as `jsonslice.Get`. -/
def Deps.withEngine (D : Deps) (rx : List Char → List Char → Bool) : Deps :=
  { D with get := engineGet rx }

/-- A regular-expression matcher that accepts nothing, for queries without `=~`. -/
def noRegex : List Char → List Char → Bool := fun _ _ => false

/-- A plain widget: a typed printable key (a key whose name is one character)
is appended to the text of a focused widget; every other message, and every
message to a blurred widget, leaves the text as it is. -/
def typeInto (focus : Bool) (value : String) : Msg → String
  | Msg.key name => if focus && name.length == 1 then value ++ name else value
  | _ => value

/-- A plain instance of the external functions: setters store their argument,
widgets behave as `typeInto`, no widget command is produced, and
`jsonslice.Get` is the engine. -/
def plainWidgets : Deps :=
  { get := engineGet noRegex
    tiNew := { value := "", focus := false, placeholder := "", charLimit := 0, width := 0 }
    tiSetValue := fun t s => { t with value := s }
    tiUpdate := fun t msg => ({ t with value := typeInto t.focus t.value msg }, Cmd.none)
    taNew :=
      { value := "", focus := false, width := 40, height := 6, prompt := "> ",
        placeholder := "", showLineNumbers := true }
    taSetValue := fun t s => { t with value := s }
    taSetWidth := fun t w => { t with width := w }
    taSetHeight := fun t h => { t with height := h }
    taUpdate := fun t msg => ({ t with value := typeInto t.focus t.value msg }, Cmd.none) }

/-! ## Valid JSON text -/

/-- Text that consists of JSON whitespace only. -/
def AllWs (w : List Char) : Prop := ∀ c ∈ w, Engine.isWs c = true

/-- The contents of a JSON string, between its quotes: characters other than
the quote, the backslash and the control characters, one-letter escapes, and
`\u` escapes of four hexadecimal digits. -/
inductive JsonChars : List Char → Prop where
  | nil : JsonChars []
  | plain (c : Char) (r : List Char) :
      c ≠ Engine.dquote → c ≠ Engine.backslash → 32 ≤ c.toNat → JsonChars r → JsonChars (c :: r)
  | escape (e : Char) (r : List Char) :
      (Engine.simpleEscape e).isSome = true → JsonChars r →
      JsonChars (Engine.backslash :: e :: r)
  | unicode (h1 h2 h3 h4 : Char) (r : List Char) :
      (Engine.hex4 h1 h2 h3 h4).isSome = true → JsonChars r →
      JsonChars (Engine.backslash :: 'u' :: h1 :: h2 :: h3 :: h4 :: r)

/-- A non-empty run of decimal digits. -/
def IsDigits (ds : List Char) : Prop := ds ≠ [] ∧ ∀ c ∈ ds, c.isDigit = true

/-- A JSON number: an optional minus sign, digits, an optional fraction (a dot
and digits) and an optional exponent (`e` or `E`, an optional sign, digits). -/
def JsonNumber (s : List Char) : Prop :=
  ∃ sign int frac exp : List Char,
    s = sign ++ int ++ frac ++ exp ∧
    (sign = [] ∨ sign = ['-']) ∧
    IsDigits int ∧
    (frac = [] ∨ ∃ ds, IsDigits ds ∧ frac = '.' :: ds) ∧
    (exp = [] ∨ ∃ e sg ds, (e = 'e' ∨ e = 'E') ∧ (sg = [] ∨ sg = ['+'] ∨ sg = ['-']) ∧
      IsDigits ds ∧ exp = e :: sg ++ ds)

/-- The syntactic categories of JSON text. -/
inductive Cat where
  | value
  | elements
  | members
  deriving DecidableEq, Repr

/-- Valid JSON text of a category: a value; the elements of a non-empty array
(values separated by commas, whitespace allowed around each); the members of a
non-empty object (each a key string, a colon and a value). -/
inductive Json : Cat → List Char → Prop where
  | null : Json Cat.value ['n', 'u', 'l', 'l']
  | true : Json Cat.value ['t', 'r', 'u', 'e']
  | false : Json Cat.value ['f', 'a', 'l', 's', 'e']
  | number (s : List Char) : JsonNumber s → Json Cat.value s
  | string (b : List Char) : JsonChars b → Json Cat.value (Engine.dquote :: b ++ [Engine.dquote])
  | emptyArray (w : List Char) : AllWs w → Json Cat.value ('[' :: w ++ [']'])
  | array (es : List Char) : Json Cat.elements es → Json Cat.value ('[' :: es ++ [']'])
  | emptyObject (w : List Char) : AllWs w → Json Cat.value ('{' :: w ++ ['}'])
  | object (ms : List Char) : Json Cat.members ms → Json Cat.value ('{' :: ms ++ ['}'])
  | lastElement (w1 v w2 : List Char) :
      AllWs w1 → Json Cat.value v → AllWs w2 → Json Cat.elements (w1 ++ v ++ w2)
  | moreElements (w1 v w2 rest : List Char) :
      AllWs w1 → Json Cat.value v → AllWs w2 → Json Cat.elements rest →
      Json Cat.elements (w1 ++ v ++ w2 ++ ',' :: rest)
  | lastMember (w1 k w2 w3 v w4 : List Char) :
      AllWs w1 → JsonChars k → AllWs w2 → AllWs w3 → Json Cat.value v → AllWs w4 →
      Json Cat.members (w1 ++ Engine.dquote :: k ++ Engine.dquote :: w2 ++ ':' :: w3 ++ v ++ w4)
  | moreMembers (w1 k w2 w3 v w4 rest : List Char) :
      AllWs w1 → JsonChars k → AllWs w2 → AllWs w3 → Json Cat.value v → AllWs w4 →
      Json Cat.members rest →
      Json Cat.members
        (w1 ++ Engine.dquote :: k ++ Engine.dquote :: w2 ++ ':' :: w3 ++ v ++ w4 ++ ',' :: rest)

/-- A character the bracket scanner passes over between tokens: no quote and
no bracket. -/
def Engine.Inert (c : Char) : Prop :=
  c ≠ Engine.dquote ∧ c ≠ '{' ∧ c ≠ '[' ∧ c ≠ '}' ∧ c ≠ ']'

/-- A span that denotes a JSON value inside the buffer, followed by text that
cannot continue a number. -/
def Engine.IsValueSpan (buf : List Char) (sp : Engine.Span) : Prop :=
  ∃ pre v post, buf = pre ++ v ++ post ∧ Json Cat.value v ∧ sp.start = pre.length ∧
    sp.stop = pre.length + v.length ∧ ∀ c ∈ post.head?, Engine.isNumberChar c = false

/-! ## Concrete inputs -/

/-- The document `{"a":1}`. -/
def objectDocument : String := "\x7b\"a\":1\x7d"

/-- The model `newModel` builds, with plain widgets, for the document `{"a":1}`. -/
def objectModel : editorModel := newModel plainWidgets (some objectDocument)

/-- The document `{"a":1`, cut off before its closing brace. -/
def truncatedDocument : String := "\x7b\"a\":1"

/-- The model `objectModel` after the key `.` has been typed into the query
input, which then holds `$.`. -/
def dotModel : editorModel := objectModel.updates plainWidgets [Msg.key "."]

/-! ## The editor: what `Update` and `newModel` do -/

/-- The shape of a call of `Update` that does not take the quit branch: the
text input (as the model held it, or focused or blurred by the tab branch)
processes the message, the query is evaluated once on `initialInput` and the
text the input then holds, and the outcome is put into the result pane. -/
theorem update_of_not_quits (D : Deps) (m : editorModel) (msg : Msg)
    (hq : m.quits msg = false) :
    ∃ ti pane,
      (ti = m.textInput ∨ ti = m.textInput.Focus ∨ ti = m.textInput.Blur) ∧
      (m.Update D msg).model.textInput = (D.tiUpdate ti msg).1 ∧
      (m.Update D msg).model.initialInput = m.initialInput ∧
      (m.Update D msg).evals = [(m.initialInput, (D.tiUpdate ti msg).1.Value)] ∧
      (m.Update D msg).model.result =
        D.taSetValue pane (renderOutcome (D.get m.initialInput (D.tiUpdate ti msg).1.Value)) := by
  cases msg with
  | key name =>
    have hq2 : Binding.Matches name m.keymap.quit = false := hq
    unfold editorModel.Update
    simp only [hq2]
    by_cases hn : Binding.Matches name m.keymap.next = true
    · by_cases hf : m.input.Focused = true
      · simp only [hn, hf]
        exact ⟨m.textInput.Focus, _, Or.inr (Or.inl rfl), rfl, rfl, rfl, rfl⟩
      · simp only [hn, hf]
        exact ⟨m.textInput.Blur, _, Or.inr (Or.inr rfl), rfl, rfl, rfl, rfl⟩
    · by_cases hd : Binding.Matches name m.keymap.delete = true
      · simp only [hn, hd]
        exact ⟨m.textInput, _, Or.inl rfl, rfl, rfl, rfl, rfl⟩
      · simp only [hn, hd]
        exact ⟨m.textInput, _, Or.inl rfl, rfl, rfl, rfl, rfl⟩
  | windowSize w h => exact ⟨m.textInput, _, Or.inl rfl, rfl, rfl, rfl, rfl⟩
  | other tag => exact ⟨m.textInput, _, Or.inl rfl, rfl, rfl, rfl, rfl⟩

/-- C1: for every model and every message that does not match the model's quit
binding (keys esc and ctrl+c in every model built by `newModel`), `Update` calls
`jsonslice.Get` exactly once, on `m.initialInput` and on the text the query
input holds after it has processed the message; the result pane of the returned
model is set to the error's message when the call returns an error and to
`string(result)` when it does not. -/
theorem update_evaluates_query_once (D : Deps) (m : editorModel) (msg : Msg)
    (hq : m.quits msg = false) :
    ∃ ti pane,
      (ti = m.textInput ∨ ti = m.textInput.Focus ∨ ti = m.textInput.Blur) ∧
      (m.Update D msg).model.textInput = (D.tiUpdate ti msg).1 ∧
      (m.Update D msg).evals = [(m.initialInput, (m.Update D msg).model.textInput.Value)] ∧
      (m.Update D msg).model.result =
        D.taSetValue pane
          (match D.get m.initialInput (m.Update D msg).model.textInput.Value with
           | Except.error err => err
           | Except.ok result => result.toGoString) := by
  obtain ⟨ti, pane, hti, htext, _, hevals, hres⟩ := update_of_not_quits D m msg hq
  refine ⟨ti, pane, hti, htext, ?_, ?_⟩
  · rw [htext]; exact hevals
  · rw [htext, hres]
    cases D.get m.initialInput (D.tiUpdate ti msg).1.Value <;> rfl

/-- C1, at a concrete input: the model built for the document `1`, with plain
widgets, and the key `a`. -/
theorem update_evaluates_query_once_witness :
    (newModel plainWidgets (some "1")).quits (Msg.key "a") = false ∧
    ∃ ti pane,
      (ti = (newModel plainWidgets (some "1")).textInput ∨
        ti = (newModel plainWidgets (some "1")).textInput.Focus ∨
        ti = (newModel plainWidgets (some "1")).textInput.Blur) ∧
      ((newModel plainWidgets (some "1")).Update plainWidgets (Msg.key "a")).model.textInput =
        (plainWidgets.tiUpdate ti (Msg.key "a")).1 ∧
      ((newModel plainWidgets (some "1")).Update plainWidgets (Msg.key "a")).evals =
        [((newModel plainWidgets (some "1")).initialInput,
          ((newModel plainWidgets (some "1")).Update plainWidgets
            (Msg.key "a")).model.textInput.Value)] ∧
      ((newModel plainWidgets (some "1")).Update plainWidgets (Msg.key "a")).model.result =
        plainWidgets.taSetValue pane
          (match plainWidgets.get (newModel plainWidgets (some "1")).initialInput
              ((newModel plainWidgets (some "1")).Update plainWidgets
                (Msg.key "a")).model.textInput.Value with
           | Except.error err => err
           | Except.ok result => result.toGoString) :=
  ⟨by decide, update_evaluates_query_once plainWidgets (newModel plainWidgets (some "1"))
    (Msg.key "a") (by decide)⟩

/-- C4: two models with the same `initialInput` whose query inputs hold the
same text after processing the message get the same text put into their result
panes by a non-quit `Update`, and make the same call of `jsonslice.Get`,
whatever their other fields are.  With `m1 = m2` this is a repeated `Update` of
one model. -/
theorem update_result_depends_on_document_and_query (D : Deps) (m1 m2 : editorModel)
    (msg : Msg) (h1 : m1.quits msg = false) (h2 : m2.quits msg = false)
    (hdoc : m1.initialInput = m2.initialInput)
    (hquery : (m1.Update D msg).model.textInput.Value =
      (m2.Update D msg).model.textInput.Value) :
    (m1.Update D msg).evals = (m2.Update D msg).evals ∧
    ∃ pane1 pane2,
      (m1.Update D msg).model.result =
        D.taSetValue pane1
          (renderOutcome (D.get m1.initialInput (m1.Update D msg).model.textInput.Value)) ∧
      (m2.Update D msg).model.result =
        D.taSetValue pane2
          (renderOutcome (D.get m1.initialInput (m1.Update D msg).model.textInput.Value)) := by
  obtain ⟨t1, p1, _, ht1, _, he1, hr1⟩ := update_of_not_quits D m1 msg h1
  obtain ⟨t2, p2, _, ht2, _, he2, hr2⟩ := update_of_not_quits D m2 msg h2
  rw [ht1, ht2] at hquery
  refine ⟨?_, p1, p2, ?_, ?_⟩
  · rw [he1, he2, hdoc, hquery]
  · rw [ht1]; exact hr1
  · rw [ht1, hr2, hdoc, hquery]

/-- C4, at a concrete input: the model built for the document `1` and the same
model after a tab and a resize, both receiving a window-size message. -/
theorem update_result_depends_on_document_and_query_witness :
    ((newModel plainWidgets (some "1")).Update plainWidgets (Msg.windowSize 80 24)).evals =
      (((newModel plainWidgets (some "1")).updates plainWidgets
        [Msg.key "tab", Msg.windowSize 120 40]).Update plainWidgets (Msg.windowSize 80 24)).evals ∧
    ∃ pane1 pane2,
      ((newModel plainWidgets (some "1")).Update plainWidgets
          (Msg.windowSize 80 24)).model.result =
        plainWidgets.taSetValue pane1
          (renderOutcome (plainWidgets.get (newModel plainWidgets (some "1")).initialInput
            ((newModel plainWidgets (some "1")).Update plainWidgets
              (Msg.windowSize 80 24)).model.textInput.Value)) ∧
      (((newModel plainWidgets (some "1")).updates plainWidgets
          [Msg.key "tab", Msg.windowSize 120 40]).Update plainWidgets
          (Msg.windowSize 80 24)).model.result =
        plainWidgets.taSetValue pane2
          (renderOutcome (plainWidgets.get (newModel plainWidgets (some "1")).initialInput
            ((newModel plainWidgets (some "1")).Update plainWidgets
              (Msg.windowSize 80 24)).model.textInput.Value)) :=
  update_result_depends_on_document_and_query plainWidgets
    (newModel plainWidgets (some "1"))
    ((newModel plainWidgets (some "1")).updates plainWidgets
      [Msg.key "tab", Msg.windowSize 120 40])
    (Msg.windowSize 80 24) (by decide) (by decide) (by decide) (by decide)

/-- C5: `newModel(nil)` puts the sample document into the editor pane and
leaves `initialInput` nil, so the document that is evaluated (no bytes) is not
the document that is displayed; for a non-nil argument both are the argument. -/
theorem newModel_nil_leaves_initialInput_nil (D : Deps) :
    (newModel D none).initialInput = none ∧
    (newModel D none).input = D.taSetValue (newTextarea D) sampleDocument ∧
    ByteSlice.toGoString (newModel D none).initialInput ≠ sampleDocument ∧
    ∀ bytes : String,
      (newModel D (some bytes)).initialInput = some bytes ∧
      (newModel D (some bytes)).input = D.taSetValue (newTextarea D) bytes := by
  refine ⟨rfl, rfl, ?_, fun bytes => ⟨rfl, rfl⟩⟩
  show "" ≠ sampleDocument
  decide

/-- C6: after one tab from the initial model the editor has the focus, so the
next tab moves the focus to the query input, and the help text of the tab
binding reads "(switch to editor)"; after a second tab the query input has the
focus and the help text reads "(switch to jsonpath query)". -/
theorem tab_help_names_the_focused_pane :
    ((newModel plainWidgets (some "1")).updates plainWidgets [Msg.key "tab"]).input.Focused
      = true ∧
    ((newModel plainWidgets (some "1")).updates plainWidgets [Msg.key "tab"]).textInput.focus
      = false ∧
    ((newModel plainWidgets (some "1")).updates plainWidgets
      [Msg.key "tab"]).keymap.next.helpDesc = "(switch to editor)" ∧
    ((newModel plainWidgets (some "1")).updates plainWidgets
      [Msg.key "tab", Msg.key "tab"]).textInput.focus = true ∧
    ((newModel plainWidgets (some "1")).updates plainWidgets
      [Msg.key "tab", Msg.key "tab"]).input.Focused = false ∧
    ((newModel plainWidgets (some "1")).updates plainWidgets
      [Msg.key "tab", Msg.key "tab"]).keymap.next.helpDesc = "(switch to jsonpath query)" := by
  decide

/-- C7: on a key that matches the quit binding, whether or not it also matches
the tab or shift+tab binding, `Update` returns the quit command and the model
with the three widgets blurred and nothing else changed: no widget receives the
key, no pane is resized, the query is not evaluated. -/
theorem update_quit_only_blurs (D : Deps) (m : editorModel) (name : String)
    (hq : Binding.Matches name m.keymap.quit = true) :
    (m.Update D (Msg.key name)).cmd = Cmd.quit ∧
    (m.Update D (Msg.key name)).evals = [] ∧
    (m.Update D (Msg.key name)).model =
      { m with textInput := m.textInput.Blur, input := m.input.Blur, result := m.result.Blur } ∧
    (m.Update D (Msg.key name)).model.textInput.focus = false ∧
    (m.Update D (Msg.key name)).model.input.Focused = false ∧
    (m.Update D (Msg.key name)).model.result.Focused = false ∧
    (m.Update D (Msg.key name)).model.width = m.width ∧
    (m.Update D (Msg.key name)).model.height = m.height ∧
    (m.Update D (Msg.key name)).model.initialInput = m.initialInput ∧
    (m.Update D (Msg.key name)).model.keymap = m.keymap ∧
    (m.Update D (Msg.key name)).model.textInput.Value = m.textInput.Value ∧
    (m.Update D (Msg.key name)).model.input.Value = m.input.Value ∧
    (m.Update D (Msg.key name)).model.result.Value = m.result.Value ∧
    (m.Update D (Msg.key name)).model.input.width = m.input.width ∧
    (m.Update D (Msg.key name)).model.input.height = m.input.height ∧
    (m.Update D (Msg.key name)).model.result.width = m.result.width ∧
    (m.Update D (Msg.key name)).model.result.height = m.result.height := by
  unfold editorModel.Update
  simp only [hq]
  exact ⟨rfl, rfl, rfl, rfl, rfl, rfl, rfl, rfl, rfl, rfl, rfl, rfl, rfl, rfl, rfl, rfl, rfl⟩

/-- C8: every call of `Update`, whatever the message, returns a model with the
`initialInput` of the model it was called on; so after any sequence of calls
the model built by `newModel` still holds the bytes `newModel` was given. -/
theorem update_keeps_initialInput :
    (∀ (D : Deps) (m : editorModel) (msg : Msg),
      (m.Update D msg).model.initialInput = m.initialInput) ∧
    (∀ (D : Deps) (m : editorModel) (msgs : List Msg),
      (m.updates D msgs).initialInput = m.initialInput) ∧
    (∀ (D : Deps) (defaultJson : ByteSlice) (msgs : List Msg),
      ((newModel D defaultJson).updates D msgs).initialInput = defaultJson) := by
  have step : ∀ (D : Deps) (m : editorModel) (msg : Msg),
      (m.Update D msg).model.initialInput = m.initialInput := by
    intro D m msg
    cases hq : m.quits msg
    · obtain ⟨_, _, _, _, h, _, _⟩ := update_of_not_quits D m msg hq
      exact h
    · cases msg with
      | key name =>
        have hq2 : Binding.Matches name m.keymap.quit = true := hq
        unfold editorModel.Update
        simp only [hq2]
        rfl
      | windowSize w h => cases hq
      | other tag => cases hq
  have many : ∀ (D : Deps) (msgs : List Msg) (m : editorModel),
      (m.updates D msgs).initialInput = m.initialInput := by
    intro D msgs
    induction msgs with
    | nil => intro m; rfl
    | cons msg rest ih =>
      intro m
      show ((m.Update D msg).model.updates D rest).initialInput = m.initialInput
      rw [ih, step]
  refine ⟨step, fun D m msgs => many D msgs m, ?_⟩
  intro D defaultJson msgs
  rw [many]
  cases defaultJson <;> rfl


/-! ## The lexer on valid JSON text -/

namespace Engine

theorem inert_of_test (p : Char → Bool) {c : Char} (h : p c = true)
    (h0 : p dquote = false) (h1 : p '{' = false) (h2 : p '[' = false)
    (h3 : p '}' = false) (h4 : p ']' = false) : Inert c := by
  refine ⟨?_, ?_, ?_, ?_, ?_⟩ <;> intro heq <;> subst heq <;> simp_all

theorem inert_of_isWs {c : Char} (h : isWs c = true) : Inert c :=
  inert_of_test isWs h (by decide) (by decide) (by decide) (by decide) (by decide)

theorem inert_of_isNumberChar {c : Char} (h : isNumberChar c = true) : Inert c :=
  inert_of_test isNumberChar h (by decide) (by decide) (by decide) (by decide) (by decide)

theorem skipNested_plain_cons_inert {c : Char} (hc : Inert c) (d : Nat) (r : List Char) :
    skipNested ScanMode.plain d (c :: r) = skipNested ScanMode.plain d r := by
  obtain ⟨h0, h1, h2, h3, h4⟩ := hc
  simp [skipNested, h0, h1, h2, h3, h4]

theorem skipNested_plain_inert (s : List Char) (hs : ∀ c ∈ s, Inert c) (d : Nat)
    (r : List Char) :
    skipNested ScanMode.plain d (s ++ r) = skipNested ScanMode.plain d r := by
  induction s with
  | nil => rfl
  | cons c s ih =>
    rw [List.cons_append, skipNested_plain_cons_inert (hs c (List.mem_cons_self c s))]
    exact ih (fun x hx => hs x (List.mem_cons_of_mem c hx))

theorem skipNested_plain_open (c : Char) (hc : c = '{' ∨ c = '[') (d : Nat) (r : List Char) :
    skipNested ScanMode.plain d (c :: r) = skipNested ScanMode.plain (d + 1) r := by
  have h1 : ('{' : Char) ≠ dquote := by decide
  have h2 : ('[' : Char) ≠ dquote := by decide
  rcases hc with h | h <;> subst h <;> simp [skipNested, h1, h2]

theorem skipNested_plain_close (c : Char) (hc : c = '}' ∨ c = ']') (d : Nat) (r : List Char) :
    skipNested ScanMode.plain (d + 1) (c :: r) = skipNested ScanMode.plain d r := by
  have h1 : ('}' : Char) ≠ dquote := by decide
  have h2 : (']' : Char) ≠ dquote := by decide
  rcases hc with h | h <;> subst h <;> simp [skipNested, h1, h2]

theorem skipNested_plain_close_zero (c : Char) (hc : c = '}' ∨ c = ']') (r : List Char) :
    skipNested ScanMode.plain 0 (c :: r) = Except.ok r := by
  have h1 : ('}' : Char) ≠ dquote := by decide
  have h2 : (']' : Char) ≠ dquote := by decide
  rcases hc with h | h <;> subst h <;> simp [skipNested, h1, h2]

theorem hexValue_ne {h : Char} (hh : (hexValue h).isSome = true) :
    h ≠ dquote ∧ h ≠ backslash := by
  constructor <;> intro heq <;> subst heq <;> revert hh <;> decide

theorem hex4_digits {a b c d : Char} (h : (hex4 a b c d).isSome = true) :
    (hexValue a).isSome = true ∧ (hexValue b).isSome = true ∧
    (hexValue c).isSome = true ∧ (hexValue d).isSome = true := by
  unfold hex4 at h
  cases ha : hexValue a <;> cases hb : hexValue b <;> cases hc : hexValue c <;>
    cases hd : hexValue d <;> simp_all


theorem skipNested_inString_plain {c : Char} (h1 : c ≠ dquote) (h2 : c ≠ backslash) (d : Nat)
    (r : List Char) :
    skipNested ScanMode.inString d (c :: r) = skipNested ScanMode.inString d r := by
  simp [skipNested, h1, h2]

theorem skipNested_inString_escape (e : Char) (d : Nat) (r : List Char) :
    skipNested ScanMode.inString d (backslash :: e :: r) = skipNested ScanMode.inString d r := by
  simp [skipNested]

theorem skipNested_string_contents {b : List Char} (hb : JsonChars b) (d : Nat) (r : List Char) :
    skipNested ScanMode.inString d (b ++ r) = skipNested ScanMode.inString d r := by
  induction hb with
  | nil => rfl
  | plain c s h1 h2 _ _ ih =>
    rw [List.cons_append, skipNested_inString_plain h1 h2]
    exact ih
  | escape e s _ _ ih =>
    rw [List.cons_append, List.cons_append, skipNested_inString_escape]
    exact ih
  | unicode a1 a2 a3 a4 s hx _ ih =>
    obtain ⟨x1, x2, x3, x4⟩ := hex4_digits hx
    simp only [List.cons_append]
    rw [skipNested_inString_escape,
      skipNested_inString_plain (hexValue_ne x1).1 (hexValue_ne x1).2,
      skipNested_inString_plain (hexValue_ne x2).1 (hexValue_ne x2).2,
      skipNested_inString_plain (hexValue_ne x3).1 (hexValue_ne x3).2,
      skipNested_inString_plain (hexValue_ne x4).1 (hexValue_ne x4).2]
    exact ih

theorem skipNested_string {b : List Char} (hb : JsonChars b) (d : Nat) (r : List Char) :
    skipNested ScanMode.plain d (dquote :: b ++ dquote :: r) = skipNested ScanMode.plain d r := by
  have h1 : skipNested ScanMode.plain d (dquote :: b ++ dquote :: r) =
      skipNested ScanMode.inString d (b ++ dquote :: r) := by
    simp [skipNested]
  have h2 : skipNested ScanMode.inString d (dquote :: r) = skipNested ScanMode.plain d r := by
    have hne : dquote ≠ backslash := by decide
    simp [skipNested, hne]
  rw [h1, skipNested_string_contents hb, h2]

theorem skipString_plain {c : Char} (h1 : c ≠ dquote) (h2 : c ≠ backslash) (r : List Char) :
    skipString false (c :: r) = skipString false r := by
  simp [skipString, h1, h2]

theorem skipString_escape (e : Char) (r : List Char) :
    skipString false (backslash :: e :: r) = skipString false r := by
  have hne : backslash ≠ dquote := by decide
  simp [skipString, hne]

theorem skipString_contents {b : List Char} (hb : JsonChars b) (r : List Char) :
    skipString false (b ++ dquote :: r) = Except.ok r := by
  induction hb with
  | nil => simp [skipString]
  | plain c s h1 h2 _ _ ih =>
    rw [List.cons_append, skipString_plain h1 h2]
    exact ih
  | escape e s _ _ ih =>
    rw [List.cons_append, List.cons_append, skipString_escape]
    exact ih
  | unicode a1 a2 a3 a4 s hx _ ih =>
    obtain ⟨x1, x2, x3, x4⟩ := hex4_digits hx
    simp only [List.cons_append]
    rw [skipString_escape,
      skipString_plain (hexValue_ne x1).1 (hexValue_ne x1).2,
      skipString_plain (hexValue_ne x2).1 (hexValue_ne x2).2,
      skipString_plain (hexValue_ne x3).1 (hexValue_ne x3).2,
      skipString_plain (hexValue_ne x4).1 (hexValue_ne x4).2]
    exact ih

theorem isNumberChar_of_isDigit {c : Char} (h : c.isDigit = true) : isNumberChar c = true := by
  simp [isNumberChar, h]

/-- Every character of a JSON number is a number character, and the first is a
minus sign or a digit. -/
theorem jsonNumber_chars {s : List Char} (hs : JsonNumber s) :
    (∀ c ∈ s, isNumberChar c = true) ∧
    ∃ c r, s = c :: r ∧ (c = '-' ∨ c.isDigit = true) := by
  obtain ⟨sign, int, frac, exp, hseq, hsign, ⟨hine, hint⟩, hfrac, hexp⟩ := hs
  have hsignc : ∀ c ∈ sign, isNumberChar c = true := by
    intro c hc
    rcases hsign with h | h <;> subst h
    · cases hc
    · simp at hc; subst hc; decide
  have hintc : ∀ c ∈ int, isNumberChar c = true :=
    fun c hc => isNumberChar_of_isDigit (hint c hc)
  have hfracc : ∀ c ∈ frac, isNumberChar c = true := by
    intro c hc
    rcases hfrac with h | ⟨ds, ⟨_, hds⟩, h⟩ <;> subst h
    · cases hc
    · rcases List.mem_cons.mp hc with h | h
      · subst h; decide
      · exact isNumberChar_of_isDigit (hds c h)
  have hexpc : ∀ c ∈ exp, isNumberChar c = true := by
    intro c hc
    rcases hexp with h | ⟨e, sg, ds, he, hsg, ⟨_, hds⟩, h⟩ <;> subst h
    · cases hc
    · rcases List.mem_cons.mp hc with h | h
      · subst h; rcases he with h | h <;> subst h <;> decide
      · rcases List.mem_append.mp h with h | h
        · rcases hsg with g | g | g <;> subst g
          · cases h
          · simp at h; subst h; decide
          · simp at h; subst h; decide
        · exact isNumberChar_of_isDigit (hds c h)
  constructor
  · intro c hc
    subst hseq
    simp only [List.mem_append] at hc
    rcases hc with ((h | h) | h) | h
    · exact hsignc c h
    · exact hintc c h
    · exact hfracc c h
    · exact hexpc c h
  · subst hseq
    rcases hsign with h | h <;> subst h
    · cases int with
      | nil => exact absurd rfl hine
      | cons c r =>
        exact ⟨c, r ++ frac ++ exp, by simp, Or.inr (hint c (List.mem_cons_self c r))⟩
    · exact ⟨'-', int ++ frac ++ exp, by simp, Or.inl rfl⟩

theorem skipNumber_append (s r : List Char) (hs : ∀ c ∈ s, isNumberChar c = true)
    (hr : ∀ c ∈ r.head?, isNumberChar c = false) : skipNumber (s ++ r) = r := by
  induction s with
  | nil =>
    cases r with
    | nil => rfl
    | cons c r =>
      have : isNumberChar c = false := hr c (by simp)
      simp [skipNumber, this]
  | cons c s ih =>
    have hc : isNumberChar c = true := hs c (List.mem_cons_self c s)
    simp only [List.cons_append, skipNumber, hc, if_true]
    exact ih (fun x hx => hs x (List.mem_cons_of_mem c hx))

theorem skipWs_append (w s : List Char) (hw : AllWs w) : skipWs (w ++ s) = skipWs s := by
  induction w with
  | nil => rfl
  | cons c w ih =>
    have hc : isWs c = true := hw c (List.mem_cons_self c w)
    simp only [List.cons_append, skipWs, hc, if_true]
    exact ih (fun x hx => hw x (List.mem_cons_of_mem c hx))

theorem skipWs_cons {c : Char} (hc : isWs c = false) (r : List Char) :
    skipWs (c :: r) = c :: r := by
  simp [skipWs, hc]

theorem inert_of_mem_word {c : Char} {word : List Char}
    (hw : ∀ x ∈ word, isNumberChar x = true ∨ x.isAlpha = true) (hc : c ∈ word) : Inert c := by
  rcases hw c hc with h | h
  · exact inert_of_isNumberChar h
  · exact inert_of_test Char.isAlpha h (by decide) (by decide) (by decide) (by decide) (by decide)

/-- The bracket scanner, between tokens, is in the same state after valid JSON
text of any category as before it. -/
theorem skipNested_json {cat : Cat} {s : List Char} (h : Json cat s) :
    ∀ (d : Nat) (r : List Char),
      skipNested ScanMode.plain d (s ++ r) = skipNested ScanMode.plain d r := by
  have ws : ∀ (w : List Char), AllWs w → ∀ (d : Nat) (r : List Char),
      skipNested ScanMode.plain d (w ++ r) = skipNested ScanMode.plain d r :=
    fun w hw d r => skipNested_plain_inert w (fun c hc => inert_of_isWs (hw c hc)) d r
  have comma : Inert ',' := by
    refine ⟨?_, ?_, ?_, ?_, ?_⟩ <;> decide
  have colon : Inert ':' := by
    refine ⟨?_, ?_, ?_, ?_, ?_⟩ <;> decide
  induction h with
  | null =>
    intro d r
    exact skipNested_plain_inert _
      (fun c hc => inert_of_mem_word
        (fun x hx => by simp at hx; rcases hx with h | h | h <;> subst h <;> decide) hc) d r
  | true =>
    intro d r
    exact skipNested_plain_inert _
      (fun c hc => inert_of_mem_word
        (fun x hx => by simp at hx; rcases hx with h | h | h | h <;> subst h <;> decide) hc) d r
  | false =>
    intro d r
    exact skipNested_plain_inert _
      (fun c hc => inert_of_mem_word
        (fun x hx => by simp at hx; rcases hx with h | h | h | h | h <;> subst h <;> decide) hc) d r
  | number s hs =>
    intro d r
    exact skipNested_plain_inert s
      (fun c hc => inert_of_isNumberChar ((jsonNumber_chars hs).1 c hc)) d r
  | string b hb =>
    intro d r
    have : (dquote :: b ++ [dquote]) ++ r = dquote :: b ++ dquote :: r := by simp
    rw [this]
    exact skipNested_string hb d r
  | emptyArray w hw =>
    intro d r
    have : ('[' :: w ++ [']']) ++ r = '[' :: (w ++ ']' :: r) := by simp
    rw [this, skipNested_plain_open _ (Or.inr rfl), ws w hw,
      skipNested_plain_close _ (Or.inr rfl)]
  | array es _ ih =>
    intro d r
    have : ('[' :: es ++ [']']) ++ r = '[' :: (es ++ ']' :: r) := by simp
    rw [this, skipNested_plain_open _ (Or.inr rfl), ih,
      skipNested_plain_close _ (Or.inr rfl)]
  | emptyObject w hw =>
    intro d r
    have : ('{' :: w ++ ['}']) ++ r = '{' :: (w ++ '}' :: r) := by simp
    rw [this, skipNested_plain_open _ (Or.inl rfl), ws w hw,
      skipNested_plain_close _ (Or.inl rfl)]
  | object ms _ ih =>
    intro d r
    have : ('{' :: ms ++ ['}']) ++ r = '{' :: (ms ++ '}' :: r) := by simp
    rw [this, skipNested_plain_open _ (Or.inl rfl), ih,
      skipNested_plain_close _ (Or.inl rfl)]
  | lastElement w1 v w2 h1 _ h2 ih =>
    intro d r
    have : (w1 ++ v ++ w2) ++ r = w1 ++ (v ++ (w2 ++ r)) := by simp
    rw [this, ws w1 h1, ih, ws w2 h2]
  | moreElements w1 v w2 rest h1 _ h2 _ ih ihrest =>
    intro d r
    have : (w1 ++ v ++ w2 ++ ',' :: rest) ++ r = w1 ++ (v ++ (w2 ++ ',' :: (rest ++ r))) := by
      simp
    rw [this, ws w1 h1, ih, ws w2 h2, skipNested_plain_cons_inert comma, ihrest]
  | lastMember w1 k w2 w3 v w4 h1 hk h2 h3 _ h4 ih =>
    intro d r
    have : (w1 ++ dquote :: k ++ dquote :: w2 ++ ':' :: w3 ++ v ++ w4) ++ r =
        w1 ++ (dquote :: k ++ dquote :: (w2 ++ ':' :: (w3 ++ (v ++ (w4 ++ r))))) := by simp
    rw [this, ws w1 h1, skipNested_string hk, ws w2 h2, skipNested_plain_cons_inert colon,
      ws w3 h3, ih, ws w4 h4]
  | moreMembers w1 k w2 w3 v w4 rest h1 hk h2 h3 _ h4 _ ih ihrest =>
    intro d r
    have : (w1 ++ dquote :: k ++ dquote :: w2 ++ ':' :: w3 ++ v ++ w4 ++ ',' :: rest) ++ r =
        w1 ++ (dquote :: k ++ dquote :: (w2 ++ ':' :: (w3 ++ (v ++ (w4 ++ ',' :: (rest ++ r))))))
        := by simp
    rw [this, ws w1 h1, skipNested_string hk, ws w2 h2, skipNested_plain_cons_inert colon,
      ws w3 h3, ih, ws w4 h4, skipNested_plain_cons_inert comma, ihrest]

theorem isWs_false_of_isDigit {c : Char} (h : c.isDigit = true) : isWs c = false := by
  cases hw : isWs c
  · rfl
  · exfalso
    revert h hw
    simp only [isWs, Char.isDigit]
    intro h hw
    simp only [Bool.or_eq_true, beq_iff_eq, Bool.and_eq_true, decide_eq_true_eq] at h hw
    have h48 : 48 ≤ c.toNat := by
      have := h.1
      simpa [Char.toNat] using this
    omega

theorem isWs_false_of_isNumberChar {c : Char} (h : isNumberChar c = true) : isWs c = false := by
  unfold isNumberChar at h
  simp only [Bool.or_eq_true, beq_iff_eq] at h
  rcases h with ((((h | h) | h) | h) | h) | h
  · exact isWs_false_of_isDigit h
  · subst h; decide
  · subst h; decide
  · subst h; decide
  · subst h; decide
  · subst h; decide

theorem isNumberChar_false_of_isWs {c : Char} (h : isWs c = true) : isNumberChar c = false := by
  cases hn : isNumberChar c
  · rfl
  · rw [isWs_false_of_isNumberChar hn] at h
    cases h

/-- A JSON value is not empty and does not start with whitespace. -/
theorem json_value_head {v : List Char} (h : Json Cat.value v) :
    ∃ c r, v = c :: r ∧ isWs c = false := by
  cases h with
  | null => exact ⟨_, _, rfl, by decide⟩
  | true => exact ⟨_, _, rfl, by decide⟩
  | false => exact ⟨_, _, rfl, by decide⟩
  | number _ hs =>
    obtain ⟨_, c, r, hcr, hc⟩ := jsonNumber_chars hs
    refine ⟨c, r, hcr, ?_⟩
    rcases hc with h | h
    · subst h; decide
    · exact isWs_false_of_isDigit h
  | string b hb => exact ⟨_, _, rfl, by decide⟩
  | emptyArray w hw => exact ⟨_, _, rfl, by decide⟩
  | array es hes => exact ⟨_, _, rfl, by decide⟩
  | emptyObject w hw => exact ⟨_, _, rfl, by decide⟩
  | object ms hms => exact ⟨_, _, rfl, by decide⟩

/-- The lexer's `skip_value` advances exactly past a JSON value, when what
follows the value cannot continue a number. -/
theorem skipValue_json {v : List Char} (h : Json Cat.value v) (r : List Char)
    (hr : ∀ c ∈ r.head?, isNumberChar c = false) :
    skipValue (v ++ r) = Except.ok r := by
  cases h with
  | null => rfl
  | true => rfl
  | false => rfl
  | number _ hs =>
    obtain ⟨hall, c, s, hcs, hc⟩ := jsonNumber_chars hs
    subst hcs
    obtain ⟨h0, h1, h2, _, _⟩ := inert_of_isNumberChar (hall c (List.mem_cons_self c s))
    have hc2 : c = '-' ∨ c.isDigit = true := hc
    simp only [List.cons_append, skipValue, h0, h1, h2, hc2, or_self, if_false, if_true]
    rw [skipNumber_append s r (fun x hx => hall x (List.mem_cons_of_mem c hx)) hr]
  | string b hb =>
    have h1 : dquote ≠ '{' := by decide
    have h2 : dquote ≠ '[' := by decide
    have : (dquote :: b ++ [dquote]) ++ r = dquote :: (b ++ dquote :: r) := by simp
    rw [this]
    simp only [skipValue, h1, h2, or_self, if_false, if_true]
    exact skipString_contents hb r
  | emptyArray w hw =>
    have : ('[' :: w ++ [']']) ++ r = '[' :: (w ++ ']' :: r) := by simp
    rw [this]
    simp only [skipValue, or_true, if_true]
    rw [skipNested_plain_inert w (fun c hc => inert_of_isWs (hw c hc)),
      skipNested_plain_close_zero _ (Or.inr rfl)]
  | array es hes =>
    have : ('[' :: es ++ [']']) ++ r = '[' :: (es ++ ']' :: r) := by simp
    rw [this]
    simp only [skipValue, or_true, if_true]
    rw [skipNested_json hes, skipNested_plain_close_zero _ (Or.inr rfl)]
  | emptyObject w hw =>
    have : ('{' :: w ++ ['}']) ++ r = '{' :: (w ++ '}' :: r) := by simp
    rw [this]
    simp only [skipValue, true_or, if_true]
    rw [skipNested_plain_inert w (fun c hc => inert_of_isWs (hw c hc)),
      skipNested_plain_close_zero _ (Or.inl rfl)]
  | object ms hms =>
    have : ('{' :: ms ++ ['}']) ++ r = '{' :: (ms ++ '}' :: r) := by simp
    rw [this]
    simp only [skipValue, true_or, if_true]
    rw [skipNested_json hms, skipNested_plain_close_zero _ (Or.inl rfl)]

theorem slice_middle (w v w2 : List Char) :
    slice (w ++ v ++ w2) ⟨w.length, w.length + v.length⟩ = v := by
  simp [slice]

/-- On a valid document the evaluator's worklist is seeded with the span of the
top-level value: the document without its surrounding whitespace. -/
theorem evaluate_root (rx : List Char → List Char → Bool) (w v w2 : List Char)
    (hw : AllWs w) (hv : Json Cat.value v) (hw2 : AllWs w2) :
    evaluate (w ++ v ++ w2) rx [] = Except.ok [⟨w.length, w.length + v.length⟩] := by
  obtain ⟨c, r, hcr, hc⟩ := json_value_head hv
  have hskip : skipWs (w ++ v ++ w2) = v ++ w2 := by
    rw [List.append_assoc, skipWs_append w _ hw, hcr, List.cons_append, skipWs_cons hc]
  have hval : skipValue (v ++ w2) = Except.ok w2 := by
    apply skipValue_json hv
    intro x hx
    cases w2 with
    | nil => cases hx
    | cons y ys =>
      have hxy : x = y := by
        simp at hx
        first | exact hx | exact hx.symm
      rw [hxy]
      exact isNumberChar_false_of_isWs (hw2 y (List.mem_cons_self y ys))
  unfold evaluate
  rw [hskip, hval]
  simp only [evalSegments]
  have e1 : (w ++ v ++ w2).length - (v ++ w2).length = w.length := by
    simp only [List.length_append]; omega
  have e2 : (w ++ v ++ w2).length - w2.length = w.length + v.length := by
    simp only [List.length_append]; omega
  rw [e1, e2]

/-- The path `$` on a valid document gives the top-level value. -/
theorem query_root (rx : List Char → List Char → Bool) (w v w2 : List Char)
    (hw : AllWs w) (hv : Json Cat.value v) (hw2 : AllWs w2) :
    query rx (w ++ v ++ w2) ['$'] = Except.ok v := by
  have hp : parse ['$'] = Except.ok [] := rfl
  unfold query
  rw [hp]
  simp only [evaluate_root rx w v w2 hw hv hw2, render, slice_middle]

/-! ### The evaluator on valid JSON text -/

theorem flatMapSpans_ok {f : Span → Except EvalError (List Span)} {P Q : Span → Prop}
    (hf : ∀ c, Q c → ∃ out, f c = Except.ok out ∧ ∀ x ∈ out, P x) :
    ∀ l : List Span, (∀ c ∈ l, Q c) →
      ∃ out, flatMapSpans f l = Except.ok out ∧ ∀ x ∈ out, P x := by
  intro l
  induction l with
  | nil => intro _; exact ⟨[], rfl, fun x hx => by cases hx⟩
  | cons c cs ih =>
    intro hl
    obtain ⟨here, h1, h2⟩ := hf c (hl c (List.mem_cons_self c cs))
    obtain ⟨more, h3, h4⟩ := ih (fun x hx => hl x (List.mem_cons_of_mem c hx))
    refine ⟨here ++ more, ?_, ?_⟩
    · simp only [flatMapSpans, h1, h3]
    · intro x hx
      rcases List.mem_append.mp hx with h | h
      · exact h2 x h
      · exact h4 x h

theorem filterSpans_ok {f : Span → Except EvalError Bool} {Q : Span → Prop}
    (hf : ∀ c, Q c → ∃ b, f c = Except.ok b) :
    ∀ l : List Span, (∀ c ∈ l, Q c) →
      ∃ out, filterSpans f l = Except.ok out ∧ ∀ x ∈ out, Q x := by
  intro l
  induction l with
  | nil => intro _; exact ⟨[], rfl, fun x hx => by cases hx⟩
  | cons c cs ih =>
    intro hl
    obtain ⟨keep, h1⟩ := hf c (hl c (List.mem_cons_self c cs))
    obtain ⟨more, h3, h4⟩ := ih (fun x hx => hl x (List.mem_cons_of_mem c hx))
    refine ⟨if keep then c :: more else more, ?_, ?_⟩
    · simp only [filterSpans, h1, h3]
    · intro x hx
      cases keep with
      | false => exact h4 x (by simpa using hx)
      | true =>
        have hx2 : x ∈ c :: more := by simpa using hx
        rcases List.mem_cons.mp hx2 with h | h
        · rw [h]; exact hl c (List.mem_cons_self c cs)
        · exact h4 x h

/-- After whitespace and a character that is no number character, the text
cannot continue a number. -/
theorem stops_ws_cons (w : List Char) (c : Char) (rest : List Char) (hw : AllWs w)
    (hc : isNumberChar c = false) : ∀ x ∈ (w ++ c :: rest).head?, isNumberChar x = false := by
  intro x hx
  cases w with
  | nil =>
    have : x = c := by
      simp at hx
      first | exact hx | exact hx.symm
    rw [this]; exact hc
  | cons y ys =>
    have : x = y := by
      simp at hx
      first | exact hx | exact hx.symm
    rw [this]; exact isNumberChar_false_of_isWs (hw y (List.mem_cons_self y ys))

theorem skipWs_ws_cons (w : List Char) (c : Char) (rest : List Char) (hw : AllWs w)
    (hc : isWs c = false) : skipWs (w ++ c :: rest) = c :: rest := by
  rw [skipWs_append w _ hw, skipWs_cons hc]

theorem skipWs_ws_value (w : List Char) {v : List Char} (rest : List Char) (hw : AllWs w)
    (hv : Json Cat.value v) : skipWs (w ++ v ++ rest) = v ++ rest := by
  obtain ⟨c, r, hcr, hc⟩ := json_value_head hv
  rw [List.append_assoc, skipWs_append w _ hw, hcr, List.cons_append, skipWs_cons hc]

theorem json_value_length_pos {v : List Char} (hv : Json Cat.value v) : 0 < v.length := by
  obtain ⟨c, r, hcr, _⟩ := json_value_head hv
  rw [hcr]; simp

/-- On the elements of a valid array the evaluator's element scan succeeds,
and every span it yields denotes a value of the buffer. -/
theorem elementsFrom_ok (buf : List Char) {cat : Cat} {es : List Char} (h : Json cat es) :
    cat = Cat.elements →
    ∀ (pre post : List Char) (fuel : Nat), buf = pre ++ es ++ ']' :: post → es.length < fuel →
      ∃ spans, elementsFrom buf.length fuel (skipWs (es ++ ']' :: post)) = Except.ok spans ∧
        ∀ sp ∈ spans, IsValueSpan buf sp ∧ sp.stop - sp.start ≤ es.length := by
  induction h with
  | null => intro hc; cases hc
  | true => intro hc; cases hc
  | false => intro hc; cases hc
  | number s _ => intro hc; cases hc
  | string b _ => intro hc; cases hc
  | emptyArray w _ => intro hc; cases hc
  | array es _ _ => intro hc; cases hc
  | emptyObject w _ => intro hc; cases hc
  | object ms _ _ => intro hc; cases hc
  | lastMember w1 k w2 w3 v w4 _ _ _ _ _ _ _ => intro hc; cases hc
  | moreMembers w1 k w2 w3 v w4 rest _ _ _ _ _ _ _ _ _ => intro hc; cases hc
  | lastElement w1 v w2 h1 hv h2 _ =>
    intro _ pre post fuel hbuf hfuel
    cases fuel with
    | zero => exact absurd hfuel (Nat.not_lt_zero _)
    | succ f =>
      have hsk : skipWs ((w1 ++ v ++ w2) ++ ']' :: post) = v ++ (w2 ++ ']' :: post) := by
        have := skipWs_ws_value w1 (w2 ++ ']' :: post) h1 hv
        simpa [List.append_assoc] using this
      have hstop : ∀ c ∈ (w2 ++ ']' :: post).head?, isNumberChar c = false :=
        stops_ws_cons w2 ']' post h2 (by decide)
      have hval := skipValue_json hv (w2 ++ ']' :: post) hstop
      have hsk2 : skipWs (w2 ++ ']' :: post) = ']' :: post :=
        skipWs_ws_cons w2 ']' post h2 (by decide)
      rw [hsk]
      refine ⟨[⟨buf.length - (v ++ (w2 ++ ']' :: post)).length,
        buf.length - (w2 ++ ']' :: post).length⟩], ?_, ?_⟩
      · simp only [elementsFrom, hval, hsk2]
        simp
      · intro sp hsp
        rw [List.mem_singleton] at hsp
        subst hsp
        refine ⟨⟨pre ++ w1, v, w2 ++ ']' :: post, ?_, hv, ?_, ?_, hstop⟩, ?_⟩
        · rw [hbuf]; simp
        · rw [hbuf]; simp only [List.length_append, List.length_cons]; omega
        · rw [hbuf]; simp only [List.length_append, List.length_cons]; omega
        · rw [hbuf]; simp only [List.length_append, List.length_cons]; omega
  | moreElements w1 v w2 rest h1 hv h2 _ _ ihrest =>
    intro _ pre post fuel hbuf hfuel
    cases fuel with
    | zero => exact absurd hfuel (Nat.not_lt_zero _)
    | succ f =>
      have hvpos := json_value_length_pos hv
      have hsk : skipWs ((w1 ++ v ++ w2 ++ ',' :: rest) ++ ']' :: post) =
          v ++ (w2 ++ ',' :: (rest ++ ']' :: post)) := by
        have := skipWs_ws_value w1 (w2 ++ ',' :: (rest ++ ']' :: post)) h1 hv
        simpa [List.append_assoc] using this
      have hstop : ∀ c ∈ (w2 ++ ',' :: (rest ++ ']' :: post)).head?, isNumberChar c = false :=
        stops_ws_cons w2 ',' _ h2 (by decide)
      have hval := skipValue_json hv (w2 ++ ',' :: (rest ++ ']' :: post)) hstop
      have hsk2 : skipWs (w2 ++ ',' :: (rest ++ ']' :: post)) = ',' :: (rest ++ ']' :: post) :=
        skipWs_ws_cons w2 ',' _ h2 (by decide)
      have hlen : rest.length < f := by
        simp only [List.length_append, List.length_cons] at hfuel
        omega
      obtain ⟨more, hmore, hall⟩ := ihrest rfl (pre ++ w1 ++ v ++ w2 ++ [',']) post f
        (by rw [hbuf]; simp) hlen
      rw [hsk]
      refine ⟨⟨buf.length - (v ++ (w2 ++ ',' :: (rest ++ ']' :: post))).length,
        buf.length - (w2 ++ ',' :: (rest ++ ']' :: post)).length⟩ :: more, ?_, ?_⟩
      · simp only [elementsFrom, hval, hsk2, hmore]
        simp
      · intro sp hsp
        rcases List.mem_cons.mp hsp with hsp | hsp
        · subst hsp
          refine ⟨⟨pre ++ w1, v, w2 ++ ',' :: (rest ++ ']' :: post), ?_, hv, ?_, ?_, hstop⟩, ?_⟩
          · rw [hbuf]; simp
          · rw [hbuf]; simp only [List.length_append, List.length_cons]; omega
          · rw [hbuf]; simp only [List.length_append, List.length_cons]; omega
          · rw [hbuf]; simp only [List.length_append, List.length_cons]; omega
        · obtain ⟨hv2, hsz⟩ := hall sp hsp
          refine ⟨hv2, ?_⟩
          simp only [List.length_append, List.length_cons]
          omega

/-- On the members of a valid object the evaluator's member scan succeeds, and
every value span it yields denotes a value of the buffer. -/
theorem membersFrom_ok (buf : List Char) {cat : Cat} {ms : List Char} (h : Json cat ms) :
    cat = Cat.members →
    ∀ (pre post : List Char) (fuel : Nat), buf = pre ++ ms ++ '}' :: post → ms.length < fuel →
      ∃ out, membersFrom buf.length fuel (skipWs (ms ++ '}' :: post)) = Except.ok out ∧
        ∀ m ∈ out, IsValueSpan buf m.2 ∧ m.2.stop - m.2.start ≤ ms.length := by
  have hq : isWs dquote = false := by decide
  induction h with
  | null => intro hc; cases hc
  | true => intro hc; cases hc
  | false => intro hc; cases hc
  | number s _ => intro hc; cases hc
  | string b _ => intro hc; cases hc
  | emptyArray w _ => intro hc; cases hc
  | array es _ _ => intro hc; cases hc
  | emptyObject w _ => intro hc; cases hc
  | object ms _ _ => intro hc; cases hc
  | lastElement w1 v w2 _ _ _ _ => intro hc; cases hc
  | moreElements w1 v w2 rest _ _ _ _ _ _ => intro hc; cases hc
  | lastMember w1 k w2 w3 v w4 h1 hk h2 h3 hv h4 _ =>
    intro _ pre post fuel hbuf hfuel
    cases fuel with
    | zero => exact absurd hfuel (Nat.not_lt_zero _)
    | succ f =>
      have hsk : skipWs ((w1 ++ dquote :: k ++ dquote :: w2 ++ ':' :: w3 ++ v ++ w4)
          ++ '}' :: post) =
          dquote :: (k ++ dquote :: (w2 ++ ':' :: (w3 ++ v ++ (w4 ++ '}' :: post)))) := by
        have := skipWs_ws_cons w1 dquote
          (k ++ dquote :: (w2 ++ ':' :: (w3 ++ v ++ (w4 ++ '}' :: post)))) h1 hq
        simpa [List.append_assoc] using this
      have hkey := skipString_contents hk (w2 ++ ':' :: (w3 ++ v ++ (w4 ++ '}' :: post)))
      have hsk1 : skipWs (w2 ++ ':' :: (w3 ++ v ++ (w4 ++ '}' :: post))) =
          ':' :: (w3 ++ v ++ (w4 ++ '}' :: post)) := skipWs_ws_cons w2 ':' _ h2 (by decide)
      have hsk2 : skipWs (w3 ++ v ++ (w4 ++ '}' :: post)) = v ++ (w4 ++ '}' :: post) :=
        skipWs_ws_value w3 _ h3 hv
      have hstop : ∀ c ∈ (w4 ++ '}' :: post).head?, isNumberChar c = false :=
        stops_ws_cons w4 '}' post h4 (by decide)
      have hval := skipValue_json hv (w4 ++ '}' :: post) hstop
      have hsk3 : skipWs (w4 ++ '}' :: post) = '}' :: post :=
        skipWs_ws_cons w4 '}' post h4 (by decide)
      rw [hsk]
      refine ⟨[(⟨buf.length - (k ++ dquote :: (w2 ++ ':' :: (w3 ++ v ++
          (w4 ++ '}' :: post)))).length,
          buf.length - (w2 ++ ':' :: (w3 ++ v ++ (w4 ++ '}' :: post))).length - 1⟩,
        ⟨buf.length - (v ++ (w4 ++ '}' :: post)).length,
          buf.length - (w4 ++ '}' :: post).length⟩)], ?_, ?_⟩
      · simp only [membersFrom, hkey, hsk1, hsk2, hval, hsk3]
        simp
      · intro m hm
        rw [List.mem_singleton] at hm
        subst hm
        refine ⟨⟨pre ++ w1 ++ dquote :: k ++ dquote :: w2 ++ ':' :: w3, v, w4 ++ '}' :: post,
          ?_, hv, ?_, ?_, hstop⟩, ?_⟩
        · rw [hbuf]; simp
        · rw [hbuf]; simp only [List.length_append, List.length_cons]; omega
        · rw [hbuf]; simp only [List.length_append, List.length_cons]; omega
        · rw [hbuf]; simp only [List.length_append, List.length_cons]; omega
  | moreMembers w1 k w2 w3 v w4 rest h1 hk h2 h3 hv h4 _ _ ihrest =>
    intro _ pre post fuel hbuf hfuel
    cases fuel with
    | zero => exact absurd hfuel (Nat.not_lt_zero _)
    | succ f =>
      have hvpos := json_value_length_pos hv
      have hsk : skipWs ((w1 ++ dquote :: k ++ dquote :: w2 ++ ':' :: w3 ++ v ++ w4
          ++ ',' :: rest) ++ '}' :: post) =
          dquote :: (k ++ dquote :: (w2 ++ ':' :: (w3 ++ v ++
            (w4 ++ ',' :: (rest ++ '}' :: post))))) := by
        have := skipWs_ws_cons w1 dquote
          (k ++ dquote :: (w2 ++ ':' :: (w3 ++ v ++ (w4 ++ ',' :: (rest ++ '}' :: post)))))
          h1 hq
        simpa [List.append_assoc] using this
      have hkey := skipString_contents hk
        (w2 ++ ':' :: (w3 ++ v ++ (w4 ++ ',' :: (rest ++ '}' :: post))))
      have hsk1 : skipWs (w2 ++ ':' :: (w3 ++ v ++ (w4 ++ ',' :: (rest ++ '}' :: post)))) =
          ':' :: (w3 ++ v ++ (w4 ++ ',' :: (rest ++ '}' :: post))) :=
        skipWs_ws_cons w2 ':' _ h2 (by decide)
      have hsk2 : skipWs (w3 ++ v ++ (w4 ++ ',' :: (rest ++ '}' :: post))) =
          v ++ (w4 ++ ',' :: (rest ++ '}' :: post)) := skipWs_ws_value w3 _ h3 hv
      have hstop : ∀ c ∈ (w4 ++ ',' :: (rest ++ '}' :: post)).head?, isNumberChar c = false :=
        stops_ws_cons w4 ',' _ h4 (by decide)
      have hval := skipValue_json hv (w4 ++ ',' :: (rest ++ '}' :: post)) hstop
      have hsk3 : skipWs (w4 ++ ',' :: (rest ++ '}' :: post)) = ',' :: (rest ++ '}' :: post) :=
        skipWs_ws_cons w4 ',' _ h4 (by decide)
      have hlen : rest.length < f := by
        simp only [List.length_append, List.length_cons] at hfuel
        omega
      obtain ⟨more, hmore, hall⟩ := ihrest rfl
        (pre ++ w1 ++ dquote :: k ++ dquote :: w2 ++ ':' :: w3 ++ v ++ w4 ++ [',']) post f
        (by rw [hbuf]; simp) hlen
      rw [hsk]
      refine ⟨(⟨buf.length - (k ++ dquote :: (w2 ++ ':' :: (w3 ++ v ++
          (w4 ++ ',' :: (rest ++ '}' :: post))))).length,
          buf.length - (w2 ++ ':' :: (w3 ++ v ++
            (w4 ++ ',' :: (rest ++ '}' :: post)))).length - 1⟩,
        ⟨buf.length - (v ++ (w4 ++ ',' :: (rest ++ '}' :: post))).length,
          buf.length - (w4 ++ ',' :: (rest ++ '}' :: post)).length⟩) :: more, ?_, ?_⟩
      · simp only [membersFrom, hkey, hsk1, hsk2, hval, hsk3, hmore]
        simp
      · intro m hm
        rcases List.mem_cons.mp hm with hm | hm
        · subst hm
          refine ⟨⟨pre ++ w1 ++ dquote :: k ++ dquote :: w2 ++ ':' :: w3, v,
            w4 ++ ',' :: (rest ++ '}' :: post), ?_, hv, ?_, ?_, hstop⟩, ?_⟩
          · rw [hbuf]; simp
          · rw [hbuf]; simp only [List.length_append, List.length_cons]; omega
          · rw [hbuf]; simp only [List.length_append, List.length_cons]; omega
          · rw [hbuf]; simp only [List.length_append, List.length_cons]; omega
        · obtain ⟨hv2, hsz⟩ := hall m hm
          refine ⟨hv2, ?_⟩
          simp only [List.length_append, List.length_cons]
          omega

theorem drop_value (buf pre v post : List Char) (sp : Span) (hbuf : buf = pre ++ v ++ post)
    (hst : sp.start = pre.length) : buf.drop sp.start = v ++ post := by
  rw [hbuf, hst, List.append_assoc]
  simp

theorem isValueSpan_size {buf : List Char} {sp : Span} (h : IsValueSpan buf sp) :
    sp.stop - sp.start ≤ buf.length := by
  obtain ⟨pre, v, post, hbuf, _, hst, hsp, _⟩ := h
  rw [hbuf, hst, hsp]
  simp only [List.length_append]
  omega

/-- What `classify` answers at the start of a JSON value, with the shape of
the value when it is an array or an object. -/
theorem classify_value {v : List Char} (hv : Json Cat.value v) (post : List Char) :
    (classify (v ++ post) = Except.ok Kind.array ∧
      ((∃ w, AllWs w ∧ v = '[' :: w ++ [']']) ∨
        ∃ es, Json Cat.elements es ∧ v = '[' :: es ++ [']'])) ∨
    (classify (v ++ post) = Except.ok Kind.object ∧
      ((∃ w, AllWs w ∧ v = '{' :: w ++ ['}']) ∨
        ∃ ms, Json Cat.members ms ∧ v = '{' :: ms ++ ['}'])) ∨
    ∃ k, classify (v ++ post) = Except.ok k ∧ k ≠ Kind.array ∧ k ≠ Kind.object := by
  cases hv with
  | null => exact Or.inr (Or.inr ⟨Kind.null, rfl, by decide, by decide⟩)
  | true => exact Or.inr (Or.inr ⟨Kind.boolean, rfl, by decide, by decide⟩)
  | false => exact Or.inr (Or.inr ⟨Kind.boolean, rfl, by decide, by decide⟩)
  | number _ hs =>
    obtain ⟨hall, c, s, hcs, hc⟩ := jsonNumber_chars hs
    subst hcs
    obtain ⟨h0, h1, h2, _, _⟩ := inert_of_isNumberChar (hall c (List.mem_cons_self c s))
    refine Or.inr (Or.inr ⟨Kind.number, ?_, by decide, by decide⟩)
    have hc2 : c = '-' ∨ c.isDigit = true := hc
    simp only [List.cons_append, classify, h0, h1, h2, hc2, if_false, if_true]
  | string b hb =>
    refine Or.inr (Or.inr ⟨Kind.string, ?_, by decide, by decide⟩)
    have h1 : dquote ≠ '{' := by decide
    have h2 : dquote ≠ '[' := by decide
    simp only [List.cons_append, classify, h1, h2, if_false, if_true]
  | emptyArray w hw => exact Or.inl ⟨rfl, Or.inl ⟨w, hw, rfl⟩⟩
  | array es hes => exact Or.inl ⟨rfl, Or.inr ⟨es, hes, rfl⟩⟩
  | emptyObject w hw => exact Or.inr (Or.inl ⟨rfl, Or.inl ⟨w, hw, rfl⟩⟩)
  | object ms hms => exact Or.inr (Or.inl ⟨rfl, Or.inr ⟨ms, hms, rfl⟩⟩)

theorem classify_ok {buf : List Char} {sp : Span} (h : IsValueSpan buf sp) :
    ∃ k, classify (buf.drop sp.start) = Except.ok k := by
  obtain ⟨pre, v, post, hbuf, hv, hst, _, _⟩ := h
  rw [drop_value buf pre v post sp hbuf hst]
  rcases classify_value hv post with ⟨h, _⟩ | ⟨h, _⟩ | ⟨k, h, _, _⟩
  · exact ⟨_, h⟩
  · exact ⟨_, h⟩
  · exact ⟨k, h⟩

/-- A JSON value starts with a character that is no whitespace and no closing
bracket. -/
theorem json_value_head_open {v : List Char} (h : Json Cat.value v) :
    ∃ c r, v = c :: r ∧ isWs c = false ∧ c ≠ ']' ∧ c ≠ '}' := by
  cases h with
  | null => exact ⟨_, _, rfl, by decide, by decide, by decide⟩
  | true => exact ⟨_, _, rfl, by decide, by decide, by decide⟩
  | false => exact ⟨_, _, rfl, by decide, by decide, by decide⟩
  | number _ hs =>
    obtain ⟨hall, c, r, hcr, hc⟩ := jsonNumber_chars hs
    subst hcr
    have hn := hall c (List.mem_cons_self c r)
    obtain ⟨_, _, _, h3, h4⟩ := inert_of_isNumberChar hn
    exact ⟨c, r, rfl, isWs_false_of_isNumberChar hn, h4, h3⟩
  | string b hb => exact ⟨_, _, rfl, by decide, by decide, by decide⟩
  | emptyArray w hw => exact ⟨_, _, rfl, by decide, by decide, by decide⟩
  | array es hes => exact ⟨_, _, rfl, by decide, by decide, by decide⟩
  | emptyObject w hw => exact ⟨_, _, rfl, by decide, by decide, by decide⟩
  | object ms hms => exact ⟨_, _, rfl, by decide, by decide, by decide⟩

theorem json_elements_skipWs {es : List Char} (h : Json Cat.elements es) (rest : List Char) :
    ∃ c t, skipWs (es ++ rest) = c :: t ∧ c ≠ ']' := by
  cases h with
  | lastElement w1 v w2 h1 hv h2 =>
    obtain ⟨c, r, hcr, _, hc, _⟩ := json_value_head_open hv
    have := skipWs_ws_value w1 (w2 ++ rest) h1 hv
    refine ⟨c, r ++ (w2 ++ rest), ?_, hc⟩
    rw [← List.cons_append, ← hcr, ← this]
    simp [List.append_assoc]
  | moreElements w1 v w2 more h1 hv h2 _ =>
    obtain ⟨c, r, hcr, _, hc, _⟩ := json_value_head_open hv
    have := skipWs_ws_value w1 (w2 ++ ',' :: more ++ rest) h1 hv
    refine ⟨c, r ++ (w2 ++ ',' :: more ++ rest), ?_, hc⟩
    rw [← List.cons_append, ← hcr, ← this]
    simp [List.append_assoc]

theorem json_members_skipWs {ms : List Char} (h : Json Cat.members ms) (rest : List Char) :
    ∃ c t, skipWs (ms ++ rest) = c :: t ∧ c ≠ '}' := by
  have hq : isWs dquote = false := by decide
  have hq2 : dquote ≠ '}' := by decide
  cases h with
  | lastMember w1 k w2 w3 v w4 h1 _ _ _ _ _ =>
    refine ⟨dquote, k ++ dquote :: w2 ++ ':' :: w3 ++ v ++ w4 ++ rest, ?_, hq2⟩
    have e : (w1 ++ dquote :: k ++ dquote :: w2 ++ ':' :: w3 ++ v ++ w4) ++ rest =
        w1 ++ dquote :: (k ++ dquote :: w2 ++ ':' :: w3 ++ v ++ w4 ++ rest) := by
      simp [List.append_assoc]
    rw [e]
    exact skipWs_ws_cons w1 dquote _ h1 hq
  | moreMembers w1 k w2 w3 v w4 more h1 _ _ _ _ _ _ =>
    refine ⟨dquote, k ++ dquote :: w2 ++ ':' :: w3 ++ v ++ w4 ++ ',' :: more ++ rest, ?_, hq2⟩
    have e : (w1 ++ dquote :: k ++ dquote :: w2 ++ ':' :: w3 ++ v ++ w4 ++ ',' :: more)
        ++ rest =
        w1 ++ dquote :: (k ++ dquote :: w2 ++ ':' :: w3 ++ v ++ w4 ++ ',' :: more ++ rest) := by
      simp [List.append_assoc]
    rw [e]
    exact skipWs_ws_cons w1 dquote _ h1 hq

/-- On a span that denotes a valid array the evaluator finds the elements, and
each is a value span shorter than the array. -/
theorem elements_ok {buf : List Char} {sp : Span} (h : IsValueSpan buf sp)
    (hk : classify (buf.drop sp.start) = Except.ok Kind.array) :
    ∃ out, elements buf sp = Except.ok out ∧
      ∀ e ∈ out, IsValueSpan buf e ∧ e.stop - e.start < sp.stop - sp.start := by
  obtain ⟨pre, v, post, hbuf, hv, hst, hsp, hpost⟩ := h
  have hdrop := drop_value buf pre v post sp hbuf hst
  rw [hdrop] at hk
  rcases classify_value hv post with ⟨_, hshape⟩ | ⟨h2, _⟩ | ⟨k, h2, hne, _⟩
  · rcases hshape with ⟨w, hw, hvw⟩ | ⟨es, hes, hves⟩
    · subst hvw
      refine ⟨[], ?_, fun e he => by cases he⟩
      have hd : buf.drop sp.start = '[' :: (w ++ ']' :: post) := by rw [hdrop]; simp
      have hs : skipWs (w ++ ']' :: post) = ']' :: post :=
        skipWs_ws_cons w ']' post hw (by decide)
      simp only [elements, hd, hs]
      simp
    · subst hves
      have hd : buf.drop sp.start = '[' :: (es ++ ']' :: post) := by rw [hdrop]; simp
      obtain ⟨c, t, hct, hc⟩ := json_elements_skipWs hes (']' :: post)
      obtain ⟨out, hout, hall⟩ := elementsFrom_ok buf hes rfl (pre ++ ['[']) post
        ((es ++ ']' :: post).length + 1) (by rw [hbuf]; simp)
        (by simp only [List.length_append, List.length_cons]; omega)
      refine ⟨out, ?_, ?_⟩
      · simp only [elements, hd]
        rw [hct] at hout
        rw [hct]
        simp only [hc, if_false]
        exact hout
      · intro e he
        obtain ⟨h1, h2⟩ := hall e he
        refine ⟨h1, ?_⟩
        rw [hst, hsp]
        simp only [List.length_append, List.length_cons, List.length_nil]
        omega
  · rw [h2] at hk
    cases hk
  · rw [h2] at hk
    injection hk with hk
    exact absurd hk hne

/-- On a span that denotes a valid object the evaluator finds the members, and
the value of each is a value span shorter than the object. -/
theorem members_ok {buf : List Char} {sp : Span} (h : IsValueSpan buf sp)
    (hk : classify (buf.drop sp.start) = Except.ok Kind.object) :
    ∃ out, members buf sp = Except.ok out ∧
      ∀ m ∈ out, IsValueSpan buf m.2 ∧ m.2.stop - m.2.start < sp.stop - sp.start := by
  obtain ⟨pre, v, post, hbuf, hv, hst, hsp, hpost⟩ := h
  have hdrop := drop_value buf pre v post sp hbuf hst
  rw [hdrop] at hk
  rcases classify_value hv post with ⟨h2, _⟩ | ⟨_, hshape⟩ | ⟨k, h2, _, hne⟩
  · rw [h2] at hk
    cases hk
  · rcases hshape with ⟨w, hw, hvw⟩ | ⟨ms, hms, hvms⟩
    · subst hvw
      refine ⟨[], ?_, fun e he => by cases he⟩
      have hd : buf.drop sp.start = '{' :: (w ++ '}' :: post) := by rw [hdrop]; simp
      have hs : skipWs (w ++ '}' :: post) = '}' :: post :=
        skipWs_ws_cons w '}' post hw (by decide)
      simp only [members, hd, hs]
      simp
    · subst hvms
      have hd : buf.drop sp.start = '{' :: (ms ++ '}' :: post) := by rw [hdrop]; simp
      obtain ⟨c, t, hct, hc⟩ := json_members_skipWs hms ('}' :: post)
      obtain ⟨out, hout, hall⟩ := membersFrom_ok buf hms rfl (pre ++ ['{']) post
        ((ms ++ '}' :: post).length + 1) (by rw [hbuf]; simp)
        (by simp only [List.length_append, List.length_cons]; omega)
      refine ⟨out, ?_, ?_⟩
      · simp only [members, hd]
        rw [hct] at hout
        rw [hct]
        simp only [hc, if_false]
        exact hout
      · intro e he
        obtain ⟨h1, h2⟩ := hall e he
        refine ⟨h1, ?_⟩
        rw [hst, hsp]
        simp only [List.length_append, List.length_cons, List.length_nil]
        omega
  · rw [h2] at hk
    injection hk with hk
    exact absurd hk hne

/-- The evaluator finds the direct children of every value span, and each is a
value span shorter than its parent. -/
theorem children_ok {buf : List Char} {sp : Span} (h : IsValueSpan buf sp) :
    ∃ kids, children buf sp = Except.ok kids ∧
      ∀ k ∈ kids, IsValueSpan buf k ∧ k.stop - k.start < sp.stop - sp.start := by
  obtain ⟨kind, hkind⟩ := classify_ok h
  cases kind with
  | object =>
    obtain ⟨ms, hms, hall⟩ := members_ok h hkind
    refine ⟨ms.map Prod.snd, ?_, ?_⟩
    · simp only [children, hkind, hms]
    · intro k hk
      obtain ⟨m, hm, hmk⟩ := List.mem_map.mp hk
      rw [← hmk]
      exact hall m hm
  | array =>
    obtain ⟨es, hes, hall⟩ := elements_ok h hkind
    exact ⟨es, by simp only [children, hkind, hes], hall⟩
  | string => exact ⟨[], by simp only [children, hkind], fun k hk => by cases hk⟩
  | number => exact ⟨[], by simp only [children, hkind], fun k hk => by cases hk⟩
  | boolean => exact ⟨[], by simp only [children, hkind], fun k hk => by cases hk⟩
  | null => exact ⟨[], by simp only [children, hkind], fun k hk => by cases hk⟩

/-- The evaluator's traversal of the subtree of a value span succeeds when the
budget exceeds the length of the span, and yields value spans. -/
theorem descend_ok (buf : List Char) :
    ∀ (fuel : Nat) (sp : Span), IsValueSpan buf sp → sp.stop - sp.start < fuel →
      ∃ out, descend buf fuel sp = Except.ok out ∧ ∀ x ∈ out, IsValueSpan buf x := by
  intro fuel
  induction fuel with
  | zero => intro sp _ h; exact absurd h (Nat.not_lt_zero _)
  | succ f ih =>
    intro sp hsp hlt
    obtain ⟨kids, hkids, hall⟩ := children_ok hsp
    obtain ⟨below, hbelow, hb⟩ :=
      flatMapSpans_ok
        (fun c (hc : IsValueSpan buf c ∧ c.stop - c.start < f) => ih c hc.1 hc.2) kids
        (fun k hk => ⟨(hall k hk).1, by have := (hall k hk).2; omega⟩)
    refine ⟨sp :: below, ?_, ?_⟩
    · simp only [descend, hkids, hbelow]
    · intro x hx
      rcases List.mem_cons.mp hx with h | h
      · rw [h]; exact hsp
      · exact hb x h

theorem descend_ok_full {buf : List Char} {sp : Span} (h : IsValueSpan buf sp) :
    ∃ out, descend buf (buf.length + 1) sp = Except.ok out ∧ ∀ x ∈ out, IsValueSpan buf x :=
  descend_ok buf (buf.length + 1) sp h (by have := isValueSpan_size h; omega)

theorem applyField_ok {buf : List Char} {sp : Span} (name : String) (h : IsValueSpan buf sp) :
    ∃ out, applyField buf name sp = Except.ok out ∧ ∀ x ∈ out, IsValueSpan buf x := by
  obtain ⟨kind, hkind⟩ := classify_ok h
  cases kind with
  | object =>
    obtain ⟨ms, hms, hall⟩ := members_ok h hkind
    simp only [applyField, hkind, findKey, hms]
    refine ⟨_, rfl, ?_⟩
    intro x hx
    cases hfind : List.find? (fun m => decide (slice buf m.1 = name.toList)) ms with
    | none => rw [hfind] at hx; cases hx
    | some m =>
      rw [hfind] at hx
      have hxm : x = m.2 := by simpa using hx
      rw [hxm]
      exact (hall m (List.mem_of_find?_eq_some hfind)).1
  | array => exact ⟨[], by simp only [applyField, hkind], fun k hk => by cases hk⟩
  | string => exact ⟨[], by simp only [applyField, hkind], fun k hk => by cases hk⟩
  | number => exact ⟨[], by simp only [applyField, hkind], fun k hk => by cases hk⟩
  | boolean => exact ⟨[], by simp only [applyField, hkind], fun k hk => by cases hk⟩
  | null => exact ⟨[], by simp only [applyField, hkind], fun k hk => by cases hk⟩

theorem mem_of_get?_toList {es : List Span} {n : Nat} {x : Span}
    (hx : x ∈ (es.get? n).toList) : x ∈ es := by
  cases hget : es.get? n with
  | none => rw [hget] at hx; cases hx
  | some e =>
    rw [hget] at hx
    have hxe : x = e := by simpa using hx
    rw [hxe]
    exact List.get?_mem hget

theorem applyIndex_ok {buf : List Char} {sp : Span} (i : Int) (h : IsValueSpan buf sp) :
    ∃ out, applyIndex buf i sp = Except.ok out ∧ ∀ x ∈ out, IsValueSpan buf x := by
  obtain ⟨kind, hkind⟩ := classify_ok h
  cases kind with
  | array =>
    obtain ⟨es, hes, hall⟩ := elements_ok h hkind
    simp only [applyIndex, hkind, hes]
    split_ifs
    all_goals
      first
      | exact ⟨[], rfl, fun k hk => by cases hk⟩
      | exact ⟨_, rfl, fun x hx => (hall x (mem_of_get?_toList hx)).1⟩
  | object => exact ⟨[], by simp only [applyIndex, hkind], fun k hk => by cases hk⟩
  | string => exact ⟨[], by simp only [applyIndex, hkind], fun k hk => by cases hk⟩
  | number => exact ⟨[], by simp only [applyIndex, hkind], fun k hk => by cases hk⟩
  | boolean => exact ⟨[], by simp only [applyIndex, hkind], fun k hk => by cases hk⟩
  | null => exact ⟨[], by simp only [applyIndex, hkind], fun k hk => by cases hk⟩

theorem applySlice_ok {buf : List Char} {sp : Span} (start stop step : Option Int)
    (h : IsValueSpan buf sp) :
    ∃ out, applySlice buf start stop step sp = Except.ok out ∧
      ∀ x ∈ out, IsValueSpan buf x := by
  obtain ⟨kind, hkind⟩ := classify_ok h
  cases kind with
  | array =>
    obtain ⟨es, hes, hall⟩ := elements_ok h hkind
    simp only [applySlice, hkind, hes]
    refine ⟨_, rfl, ?_⟩
    intro x hx
    obtain ⟨n, _, hn⟩ := List.mem_filterMap.mp hx
    exact (hall x (List.get?_mem hn)).1
  | object => exact ⟨[], by simp only [applySlice, hkind], fun k hk => by cases hk⟩
  | string => exact ⟨[], by simp only [applySlice, hkind], fun k hk => by cases hk⟩
  | number => exact ⟨[], by simp only [applySlice, hkind], fun k hk => by cases hk⟩
  | boolean => exact ⟨[], by simp only [applySlice, hkind], fun k hk => by cases hk⟩
  | null => exact ⟨[], by simp only [applySlice, hkind], fun k hk => by cases hk⟩

theorem applyUnion_ok {buf : List Char} {sp : Span} (h : IsValueSpan buf sp) :
    ∀ items : List UnionItem,
      ∃ out, applyUnion buf sp items = Except.ok out ∧ ∀ x ∈ out, IsValueSpan buf x := by
  intro items
  induction items with
  | nil => exact ⟨[], rfl, fun k hk => by cases hk⟩
  | cons item items ih =>
    obtain ⟨more, hmore, hm⟩ := ih
    cases item with
    | index i =>
      obtain ⟨here, hhere, hh⟩ := applyIndex_ok i h
      refine ⟨here ++ more, by simp only [applyUnion, hhere, hmore], ?_⟩
      intro x hx
      rcases List.mem_append.mp hx with hx | hx
      · exact hh x hx
      · exact hm x hx
    | field name =>
      obtain ⟨here, hhere, hh⟩ := applyField_ok name h
      refine ⟨here ++ more, by simp only [applyUnion, hhere, hmore], ?_⟩
      intro x hx
      rcases List.mem_append.mp hx with hx | hx
      · exact hh x hx
      · exact hm x hx

mutual
/-- On value spans of a buffer the evaluator processes every list of segments
without an error, and yields value spans. -/
theorem evalSegments_ok (buf : List Char) (rx : List Char → List Char → Bool) :
    (segs : List Segment) → ∀ cands : List Span, (∀ c ∈ cands, IsValueSpan buf c) →
      ∃ out, evalSegments buf rx segs cands = Except.ok out ∧ ∀ x ∈ out, IsValueSpan buf x
  | [], cands, h => ⟨cands, by simp only [evalSegments], h⟩
  | [Segment.RecursiveDescent], cands, h => by
    obtain ⟨next, hnext, hn⟩ :=
      flatMapSpans_ok (applySegment_ok buf rx Segment.RecursiveDescent) cands h
    exact ⟨next, by simp only [evalSegments, hnext], hn⟩
  | Segment.RecursiveDescent :: seg :: rest, cands, h => by
    obtain ⟨nodes, hnodes, hnd⟩ :=
      flatMapSpans_ok (fun c (hc : IsValueSpan buf c) => descend_ok_full hc) cands h
    obtain ⟨next, hnext, hn⟩ := flatMapSpans_ok (applySegment_ok buf rx seg) nodes hnd
    obtain ⟨out, hout, ho⟩ := evalSegments_ok buf rx rest next hn
    exact ⟨out, by simp only [evalSegments, hnodes, hnext, hout], ho⟩
  | Segment.Field name :: rest, cands, h => by
    obtain ⟨next, hnext, hn⟩ :=
      flatMapSpans_ok (applySegment_ok buf rx (Segment.Field name)) cands h
    obtain ⟨out, hout, ho⟩ := evalSegments_ok buf rx rest next hn
    exact ⟨out, by simp only [evalSegments, hnext, hout], ho⟩
  | Segment.Wildcard :: rest, cands, h => by
    obtain ⟨next, hnext, hn⟩ :=
      flatMapSpans_ok (applySegment_ok buf rx Segment.Wildcard) cands h
    obtain ⟨out, hout, ho⟩ := evalSegments_ok buf rx rest next hn
    exact ⟨out, by simp only [evalSegments, hnext, hout], ho⟩
  | Segment.Index i :: rest, cands, h => by
    obtain ⟨next, hnext, hn⟩ :=
      flatMapSpans_ok (applySegment_ok buf rx (Segment.Index i)) cands h
    obtain ⟨out, hout, ho⟩ := evalSegments_ok buf rx rest next hn
    exact ⟨out, by simp only [evalSegments, hnext, hout], ho⟩
  | Segment.Slice start stop step :: rest, cands, h => by
    obtain ⟨next, hnext, hn⟩ :=
      flatMapSpans_ok (applySegment_ok buf rx (Segment.Slice start stop step)) cands h
    obtain ⟨out, hout, ho⟩ := evalSegments_ok buf rx rest next hn
    exact ⟨out, by simp only [evalSegments, hnext, hout], ho⟩
  | Segment.Union items :: rest, cands, h => by
    obtain ⟨next, hnext, hn⟩ :=
      flatMapSpans_ok (applySegment_ok buf rx (Segment.Union items)) cands h
    obtain ⟨out, hout, ho⟩ := evalSegments_ok buf rx rest next hn
    exact ⟨out, by simp only [evalSegments, hnext, hout], ho⟩
  | Segment.Filter p :: rest, cands, h => by
    obtain ⟨next, hnext, hn⟩ :=
      flatMapSpans_ok (applySegment_ok buf rx (Segment.Filter p)) cands h
    obtain ⟨out, hout, ho⟩ := evalSegments_ok buf rx rest next hn
    exact ⟨out, by simp only [evalSegments, hnext, hout], ho⟩
/-- On a value span the evaluator applies every segment without an error, and
yields value spans. -/
theorem applySegment_ok (buf : List Char) (rx : List Char → List Char → Bool) :
    (seg : Segment) → ∀ c : Span, IsValueSpan buf c →
      ∃ out, applySegment buf rx seg c = Except.ok out ∧ ∀ x ∈ out, IsValueSpan buf x
  | Segment.Field name, c, h => by
    simp only [applySegment]; exact applyField_ok name h
  | Segment.Wildcard, c, h => by
    obtain ⟨kids, hkids, hall⟩ := children_ok h
    exact ⟨kids, by simp only [applySegment, hkids], fun k hk => (hall k hk).1⟩
  | Segment.Index i, c, h => by
    simp only [applySegment]; exact applyIndex_ok i h
  | Segment.Slice start stop step, c, h => by
    simp only [applySegment]; exact applySlice_ok start stop step h
  | Segment.Union items, c, h => by
    simp only [applySegment]; exact applyUnion_ok h items
  | Segment.RecursiveDescent, c, h => by
    simp only [applySegment]; exact descend_ok_full h
  | Segment.Filter p, c, h => by
    obtain ⟨kids, hkids, hall⟩ := children_ok h
    obtain ⟨out, hout, ho⟩ :=
      filterSpans_ok (evalPredicate_ok buf rx p) kids (fun k hk => (hall k hk).1)
    exact ⟨out, by simp only [applySegment, hkids, hout], ho⟩
/-- On a value span the evaluator evaluates every predicate without an error. -/
theorem evalPredicate_ok (buf : List Char) (rx : List Char → List Char → Bool) :
    (p : Predicate) → ∀ c : Span, IsValueSpan buf c →
      ∃ b, evalPredicate buf rx p c = Except.ok b
  | Predicate.cmp lhs op rhs, c, h => by
    obtain ⟨a, ha⟩ := resolveOperand_ok buf rx lhs c h
    obtain ⟨b, hb⟩ := resolveOperand_ok buf rx rhs c h
    simp only [evalPredicate, ha, hb]
    exact ⟨_, rfl⟩
  | Predicate.and a b, c, h => by
    obtain ⟨x, hx⟩ := evalPredicate_ok buf rx a c h
    obtain ⟨y, hy⟩ := evalPredicate_ok buf rx b c h
    simp only [evalPredicate, hx, hy]
    exact ⟨_, rfl⟩
  | Predicate.or a b, c, h => by
    obtain ⟨x, hx⟩ := evalPredicate_ok buf rx a c h
    obtain ⟨y, hy⟩ := evalPredicate_ok buf rx b c h
    simp only [evalPredicate, hx, hy]
    exact ⟨_, rfl⟩
  | Predicate.not a, c, h => by
    obtain ⟨x, hx⟩ := evalPredicate_ok buf rx a c h
    simp only [evalPredicate, hx]
    exact ⟨_, rfl⟩
/-- On a value span the evaluator resolves every operand without an error. -/
theorem resolveOperand_ok (buf : List Char) (rx : List Char → List Char → Bool) :
    (o : Operand) → ∀ c : Span, IsValueSpan buf c →
      ∃ r, resolveOperand buf rx o c = Except.ok r
  | Operand.lit l, c, h => ⟨some l, by simp only [resolveOperand]⟩
  | Operand.path segs, c, h => by
    obtain ⟨out, hout, _⟩ := evalSegments_ok buf rx segs [c]
      (fun x hx => by rw [List.mem_singleton] at hx; rw [hx]; exact h)
    cases out with
    | nil => exact ⟨none, by simp only [resolveOperand, hout]⟩
    | cons m ms =>
      cases ms with
      | nil => exact ⟨scalarAt buf m, by simp only [resolveOperand, hout]⟩
      | cons m2 ms2 => exact ⟨none, by simp only [resolveOperand, hout]⟩
end

/-- On a valid document the evaluator returns a MatchSet for every list of
segments: it returns no error. -/
theorem evaluate_ok (rx : List Char → List Char → Bool) (w v w2 : List Char)
    (hw : AllWs w) (hv : Json Cat.value v) (hw2 : AllWs w2) (segs : List Segment) :
    ∃ ms, evaluate (w ++ v ++ w2) rx segs = Except.ok ms ∧
      ∀ m ∈ ms, IsValueSpan (w ++ v ++ w2) m := by
  have hstop : ∀ c ∈ w2.head?, isNumberChar c = false := by
    intro x hx
    cases w2 with
    | nil => cases hx
    | cons y ys =>
      have hxy : x = y := by
        simp at hx
        first | exact hx | exact hx.symm
      rw [hxy]
      exact isNumberChar_false_of_isWs (hw2 y (List.mem_cons_self y ys))
  have hskip : skipWs (w ++ v ++ w2) = v ++ w2 := skipWs_ws_value w w2 hw hv
  have hval : skipValue (v ++ w2) = Except.ok w2 := skipValue_json hv w2 hstop
  have e1 : (w ++ v ++ w2).length - (v ++ w2).length = w.length := by
    simp only [List.length_append]; omega
  have e2 : (w ++ v ++ w2).length - w2.length = w.length + v.length := by
    simp only [List.length_append]; omega
  have hseed : ∀ c ∈ [(⟨w.length, w.length + v.length⟩ : Span)],
      IsValueSpan (w ++ v ++ w2) c := by
    intro c hc
    rw [List.mem_singleton] at hc
    rw [hc]
    exact ⟨w, v, w2, rfl, hv, rfl, rfl, hstop⟩
  obtain ⟨ms, hms, hall⟩ :=
    evalSegments_ok (w ++ v ++ w2) rx segs [⟨w.length, w.length + v.length⟩] hseed
  refine ⟨ms, ?_, hall⟩
  unfold evaluate
  rw [hskip, hval]
  simp only [e1, e2]
  exact hms

end Engine


/-! ## The editor on the engine -/

/-- In a model built by `newModel` the quit branch is taken exactly on the keys
esc and ctrl+c. -/
theorem newModel_quits (D : Deps) (defaultJson : ByteSlice) (msg : Msg)
    (hq : msg ≠ Msg.key "esc" ∧ msg ≠ Msg.key "ctrl+c") :
    (newModel D defaultJson).quits msg = false := by
  cases msg with
  | key name =>
    have h1 : name ≠ "esc" := fun h => hq.1 (by rw [h])
    have h2 : name ≠ "ctrl+c" := fun h => hq.2 (by rw [h])
    cases defaultJson <;>
      simp [editorModel.quits, newModel, Binding.Matches, Binding.new, h1, h2]
  | windowSize w h => rfl
  | other tag => rfl

/-- C2 (amended): for a valid JSON document `newModel` yields a model whose
evaluated document is the document and whose query text is `$` (the text input
storing the text `$` as it is); the path `$` evaluates to a single match, the
span of the top-level value, which is the document without its surrounding
whitespace; and a first `Update` with a message that is no quit key and leaves
the query text `$` unchanged calls the engine once on the document and `$` and
puts that value into the result pane. -/
theorem newModel_root_query_shows_document (D : Deps) (rx : List Char → List Char → Bool)
    (w v w2 : List Char) (msg : Msg)
    (hw : AllWs w) (hv : Json Cat.value v) (hw2 : AllWs w2)
    (hstore : ∀ t : TextInput, (D.tiSetValue t "$").value = "$")
    (hkeep : ∀ t : TextInput, t.value = "$" → (D.tiUpdate t msg).1.value = "$")
    (hq : msg ≠ Msg.key "esc" ∧ msg ≠ Msg.key "ctrl+c") :
    (newModel (D.withEngine rx) (some (String.mk (w ++ v ++ w2)))).initialInput =
      some (String.mk (w ++ v ++ w2)) ∧
    (newModel (D.withEngine rx) (some (String.mk (w ++ v ++ w2)))).textInput.Value = "$" ∧
    Engine.evaluate (w ++ v ++ w2) rx [] = Except.ok [⟨w.length, w.length + v.length⟩] ∧
    Engine.slice (w ++ v ++ w2) ⟨w.length, w.length + v.length⟩ = v ∧
    Engine.query rx (w ++ v ++ w2) ['$'] = Except.ok v ∧
    ((newModel (D.withEngine rx) (some (String.mk (w ++ v ++ w2)))).Update
      (D.withEngine rx) msg).evals = [(some (String.mk (w ++ v ++ w2)), "$")] ∧
    ∃ pane,
      ((newModel (D.withEngine rx) (some (String.mk (w ++ v ++ w2)))).Update
        (D.withEngine rx) msg).model.result = D.taSetValue pane (String.mk v) := by
  have hvalue : (newModel (D.withEngine rx) (some (String.mk (w ++ v ++ w2)))).textInput.value
      = "$" := hstore _
  have hroot := Engine.query_root rx w v w2 hw hv hw2
  refine ⟨rfl, hvalue, Engine.evaluate_root rx w v w2 hw hv hw2, Engine.slice_middle w v w2,
    hroot, ?_⟩
  obtain ⟨ti, pane, hti, _, _, hevals, hres⟩ :=
    update_of_not_quits (D.withEngine rx) _ msg (newModel_quits (D.withEngine rx) _ msg hq)
  have htiv : ti.value = "$" := by
    rcases hti with h | h | h <;> rw [h] <;> exact hvalue
  have hafter : ((D.withEngine rx).tiUpdate ti msg).1.Value = "$" := hkeep ti htiv
  rw [hafter] at hevals hres
  refine ⟨hevals, pane, ?_⟩
  rw [hres]
  have hget : (D.withEngine rx).get
      (newModel (D.withEngine rx) (some (String.mk (w ++ v ++ w2)))).initialInput "$" =
      Except.ok (some (String.mk v)) := by
    show engineGet rx (some (String.mk (w ++ v ++ w2))) "$" = Except.ok (some (String.mk v))
    unfold engineGet
    have : Engine.query rx (ByteSlice.toGoString (some (String.mk (w ++ v ++ w2)))).toList
        ("$" : String).toList = Except.ok v := hroot
    rw [this]
  rw [hget]
  rfl

/-- C2 (amended), at a concrete input: the document ` [1] `, plain widgets and
a window-size message. -/
theorem newModel_root_query_shows_document_witness :
    AllWs [' '] ∧ Json Cat.value ['[', '1', ']'] ∧ AllWs [' '] ∧
    (∀ t : TextInput, (plainWidgets.tiSetValue t "$").value = "$") ∧
    (∀ t : TextInput, t.value = "$" →
      (plainWidgets.tiUpdate t (Msg.windowSize 80 24)).1.value = "$") ∧
    (Msg.windowSize 80 24 ≠ Msg.key "esc" ∧ Msg.windowSize 80 24 ≠ Msg.key "ctrl+c") ∧
    ((newModel (plainWidgets.withEngine noRegex)
        (some (String.mk ([' '] ++ ['[', '1', ']'] ++ [' '])))).initialInput =
      some (String.mk ([' '] ++ ['[', '1', ']'] ++ [' '])) ∧
    (newModel (plainWidgets.withEngine noRegex)
        (some (String.mk ([' '] ++ ['[', '1', ']'] ++ [' '])))).textInput.Value = "$" ∧
    Engine.evaluate ([' '] ++ ['[', '1', ']'] ++ [' ']) noRegex [] =
      Except.ok [⟨[' '].length, [' '].length + ['[', '1', ']'].length⟩] ∧
    Engine.slice ([' '] ++ ['[', '1', ']'] ++ [' '])
      ⟨[' '].length, [' '].length + ['[', '1', ']'].length⟩ = ['[', '1', ']'] ∧
    Engine.query noRegex ([' '] ++ ['[', '1', ']'] ++ [' ']) ['$'] = Except.ok ['[', '1', ']'] ∧
    ((newModel (plainWidgets.withEngine noRegex)
        (some (String.mk ([' '] ++ ['[', '1', ']'] ++ [' '])))).Update
      (plainWidgets.withEngine noRegex) (Msg.windowSize 80 24)).evals =
      [(some (String.mk ([' '] ++ ['[', '1', ']'] ++ [' '])), "$")] ∧
    ∃ pane,
      ((newModel (plainWidgets.withEngine noRegex)
          (some (String.mk ([' '] ++ ['[', '1', ']'] ++ [' '])))).Update
        (plainWidgets.withEngine noRegex) (Msg.windowSize 80 24)).model.result =
        plainWidgets.taSetValue pane (String.mk ['[', '1', ']'])) :=
  have hws : AllWs [' '] := fun c hc => by
    rw [List.mem_singleton] at hc
    rw [hc]
    decide
  have hone : JsonNumber ['1'] :=
    ⟨[], ['1'], [], [], rfl, Or.inl rfl,
      ⟨by decide, fun c hc => by rw [List.mem_singleton] at hc; rw [hc]; decide⟩,
      Or.inl rfl, Or.inl rfl⟩
  have harr : Json Cat.value ['[', '1', ']'] :=
    Json.array ['1'] (Json.lastElement [] ['1'] [] (fun _ hc => by cases hc)
      (Json.number ['1'] hone) (fun _ hc => by cases hc))
  ⟨hws, harr, hws, fun _ => rfl, fun _ h => h, ⟨by decide, by decide⟩,
    newModel_root_query_shows_document plainWidgets noRegex [' '] ['[', '1', ']'] [' ']
      (Msg.windowSize 80 24) hws harr hws (fun _ => rfl) (fun _ h => h)
      ⟨by decide, by decide⟩⟩

/-- C2, as stated, fails: a first `Update` with the key `x`, which is no quit
key, makes the query text `$x`, and the result pane then holds the text of a
parse error, not the document `1`. -/
theorem first_update_after_typed_key_shows_error :
    (newModel plainWidgets (some "1")).quits (Msg.key "x") = false ∧
    ((newModel plainWidgets (some "1")).Update plainWidgets
      (Msg.key "x")).model.textInput.Value = "$x" ∧
    ((newModel plainWidgets (some "1")).Update plainWidgets
      (Msg.key "x")).model.result.Value = "UnexpectedToken" ∧
    ((newModel plainWidgets (some "1")).Update plainWidgets
      (Msg.key "x")).model.result.Value ≠ "1" := by
  decide

/-- C3 (amended): with the engine as `jsonslice.Get`, a non-quit `Update` of a
model whose document is valid JSON keeps a legitimate empty result and a
failure apart.  When the query text parses, its evaluation on the document
returns no error: there is a MatchSet, the engine returns its rendering, and
the result pane is set to that rendering; when the MatchSet is empty (the path
matches nothing) the output is empty and the result pane is set to the empty
text.  When the query text does not parse, the engine returns that parse error
and the result pane is set to the error's message.  On the document `{"a":1}`
the path `$.b` is of the first kind, with an empty MatchSet, and the path `$[`
of the second. -/
theorem valid_path_on_valid_document_is_no_error (D : Deps)
    (rx : List Char → List Char → Bool) (m : editorModel) (msg : Msg) (w v w2 : List Char)
    (hq : m.quits msg = false)
    (hdoc : m.initialInput.toGoString.toList = w ++ v ++ w2)
    (hw : AllWs w) (hv : Json Cat.value v) (hw2 : AllWs w2) :
    (∀ segs,
      Engine.parse (m.Update (D.withEngine rx) msg).model.textInput.Value.toList
        = Except.ok segs →
      ∃ ms,
        Engine.evaluate m.initialInput.toGoString.toList rx segs = Except.ok ms ∧
        Engine.query rx m.initialInput.toGoString.toList
          (m.Update (D.withEngine rx) msg).model.textInput.Value.toList =
          Except.ok (Engine.render m.initialInput.toGoString.toList ms) ∧
        (∃ pane, (m.Update (D.withEngine rx) msg).model.result =
          D.taSetValue pane (String.mk (Engine.render m.initialInput.toGoString.toList ms))) ∧
        (ms = [] →
          Engine.query rx m.initialInput.toGoString.toList
            (m.Update (D.withEngine rx) msg).model.textInput.Value.toList = Except.ok [] ∧
          ∃ pane, (m.Update (D.withEngine rx) msg).model.result = D.taSetValue pane "")) ∧
    (∀ e,
      Engine.parse (m.Update (D.withEngine rx) msg).model.textInput.Value.toList
        = Except.error e →
      Engine.query rx m.initialInput.toGoString.toList
        (m.Update (D.withEngine rx) msg).model.textInput.Value.toList
        = Except.error (Engine.Error.parse e) ∧
      ∃ pane, (m.Update (D.withEngine rx) msg).model.result =
        D.taSetValue pane (Engine.Error.parse e).message) ∧
    Engine.query rx objectDocument.toList ['$', '.', 'b'] = Except.ok [] ∧
    Engine.query rx objectDocument.toList ['$', '['] =
      Except.error (Engine.Error.parse Engine.ParseError.UnterminatedBracket) := by
  obtain ⟨ti, pane, _, htext, _, _, hres⟩ := update_of_not_quits (D.withEngine rx) m msg hq
  rw [htext]
  refine ⟨?_, ?_, rfl, rfl⟩
  · intro segs hparse
    obtain ⟨ms, hms, _⟩ := Engine.evaluate_ok rx w v w2 hw hv hw2 segs
    rw [← hdoc] at hms
    have hquery : Engine.query rx m.initialInput.toGoString.toList
        ((D.withEngine rx).tiUpdate ti msg).1.Value.toList =
        Except.ok (Engine.render m.initialInput.toGoString.toList ms) := by
      simp only [Engine.query, hparse, hms]
    have hpane : (m.Update (D.withEngine rx) msg).model.result =
        D.taSetValue pane (String.mk (Engine.render m.initialInput.toGoString.toList ms)) := by
      rw [hres]
      show D.taSetValue pane (renderOutcome (engineGet rx _ _)) = _
      unfold engineGet
      rw [hquery]
      rfl
    refine ⟨ms, hms, hquery, ⟨pane, hpane⟩, ?_⟩
    intro hempty
    rw [hempty] at hquery hpane
    exact ⟨hquery, pane, hpane⟩
  · intro e hparse
    have hquery : Engine.query rx m.initialInput.toGoString.toList
        ((D.withEngine rx).tiUpdate ti msg).1.Value.toList =
        Except.error (Engine.Error.parse e) := by
      simp only [Engine.query, hparse]
    refine ⟨hquery, pane, ?_⟩
    rw [hres]
    show D.taSetValue pane (renderOutcome (engineGet rx _ _)) = _
    unfold engineGet
    rw [hquery]
    rfl

/-- C3, as stated, fails: on the document `{"a":1`, which is cut off, the
syntactically valid path `$.b` matches nothing, no MatchSet being produced, and
the evaluation returns the error `UnexpectedEndOfInput`; typed into the query
input, it makes `Update` put that error's message into the result pane. -/
theorem valid_path_on_truncated_document_is_error :
    Engine.parse ['$', '.', 'b'] = Except.ok [Engine.Segment.Field "b"] ∧
    Engine.evaluate truncatedDocument.toList noRegex [Engine.Segment.Field "b"] =
      Except.error Engine.EvalError.UnexpectedEndOfInput ∧
    Engine.query noRegex truncatedDocument.toList ['$', '.', 'b'] =
      Except.error (Engine.Error.eval Engine.EvalError.UnexpectedEndOfInput) ∧
    Engine.query noRegex truncatedDocument.toList ['$', '.', 'b'] ≠ Except.ok [] ∧
    ((newModel plainWidgets (some truncatedDocument)).updates plainWidgets
      [Msg.key ".", Msg.key "b"]).textInput.Value = "$.b" ∧
    ((newModel plainWidgets (some truncatedDocument)).updates plainWidgets
      [Msg.key ".", Msg.key "b"]).result.Value = "UnexpectedEndOfInput" := by
  refine ⟨rfl, rfl, rfl, ?_, by decide, by decide⟩
  intro h
  cases h

/-- C3 (amended), at a concrete input: the model for the document `{"a":1}`
whose query input holds `$.`, receiving the key `b`.  Typing `.b` after the
initial `$` gives the query `$.b` and an empty result pane; typing `[` gives
the query `$[` and the text of the parse error in the result pane. -/
theorem valid_path_on_valid_document_is_no_error_witness :
    dotModel.quits (Msg.key "b") = false ∧
    dotModel.initialInput.toGoString.toList = [] ++ objectDocument.toList ++ [] ∧
    AllWs [] ∧ Json Cat.value objectDocument.toList ∧ AllWs [] ∧
    ((∀ segs,
      Engine.parse (dotModel.Update (plainWidgets.withEngine noRegex)
        (Msg.key "b")).model.textInput.Value.toList = Except.ok segs →
      ∃ ms,
        Engine.evaluate dotModel.initialInput.toGoString.toList noRegex segs = Except.ok ms ∧
        Engine.query noRegex dotModel.initialInput.toGoString.toList
          (dotModel.Update (plainWidgets.withEngine noRegex)
            (Msg.key "b")).model.textInput.Value.toList =
          Except.ok (Engine.render dotModel.initialInput.toGoString.toList ms) ∧
        (∃ pane, (dotModel.Update (plainWidgets.withEngine noRegex)
            (Msg.key "b")).model.result =
          plainWidgets.taSetValue pane
            (String.mk (Engine.render dotModel.initialInput.toGoString.toList ms))) ∧
        (ms = [] →
          Engine.query noRegex dotModel.initialInput.toGoString.toList
            (dotModel.Update (plainWidgets.withEngine noRegex)
              (Msg.key "b")).model.textInput.Value.toList = Except.ok [] ∧
          ∃ pane, (dotModel.Update (plainWidgets.withEngine noRegex)
            (Msg.key "b")).model.result = plainWidgets.taSetValue pane "")) ∧
    (∀ e,
      Engine.parse (dotModel.Update (plainWidgets.withEngine noRegex)
        (Msg.key "b")).model.textInput.Value.toList = Except.error e →
      Engine.query noRegex dotModel.initialInput.toGoString.toList
        (dotModel.Update (plainWidgets.withEngine noRegex)
          (Msg.key "b")).model.textInput.Value.toList = Except.error (Engine.Error.parse e) ∧
      ∃ pane, (dotModel.Update (plainWidgets.withEngine noRegex) (Msg.key "b")).model.result =
        plainWidgets.taSetValue pane (Engine.Error.parse e).message) ∧
    Engine.query noRegex objectDocument.toList ['$', '.', 'b'] = Except.ok [] ∧
    Engine.query noRegex objectDocument.toList ['$', '['] =
      Except.error (Engine.Error.parse Engine.ParseError.UnterminatedBracket)) ∧
    Engine.evaluate objectDocument.toList noRegex [Engine.Segment.Field "b"] = Except.ok [] ∧
    (objectModel.updates plainWidgets [Msg.key ".", Msg.key "b"]).textInput.Value = "$.b" ∧
    (objectModel.updates plainWidgets [Msg.key ".", Msg.key "b"]).result.Value = "" ∧
    (objectModel.updates plainWidgets [Msg.key "["]).textInput.Value = "$[" ∧
    (objectModel.updates plainWidgets [Msg.key "["]).result.Value = "UnterminatedBracket" :=
  have hnil : AllWs [] := fun _ hc => by cases hc
  have hone : JsonNumber ['1'] :=
    ⟨[], ['1'], [], [], rfl, Or.inl rfl,
      ⟨by decide, fun c hc => by rw [List.mem_singleton] at hc; rw [hc]; decide⟩,
      Or.inl rfl, Or.inl rfl⟩
  have hkey : JsonChars ['a'] :=
    JsonChars.plain 'a' [] (by decide) (by decide) (by decide) JsonChars.nil
  have hobj : Json Cat.value objectDocument.toList :=
    Json.object _ (Json.lastMember [] ['a'] [] [] ['1'] [] hnil hkey hnil hnil
      (Json.number ['1'] hone) hnil)
  ⟨by decide, rfl, hnil, hobj, hnil,
    valid_path_on_valid_document_is_no_error plainWidgets noRegex dotModel (Msg.key "b")
      [] objectDocument.toList [] (by decide) rfl hnil hobj hnil,
    rfl, by decide, by decide, by decide, by decide⟩

/-- C7, at a concrete input: the model for the document `{"a":1}` and the key esc. -/
theorem update_quit_only_blurs_witness :
    Binding.Matches "esc" objectModel.keymap.quit = true ∧
    (objectModel.Update plainWidgets (Msg.key "esc")).cmd = Cmd.quit ∧
    (objectModel.Update plainWidgets (Msg.key "esc")).evals = [] ∧
    (objectModel.Update plainWidgets (Msg.key "esc")).model =
      { objectModel with textInput := objectModel.textInput.Blur,
                         input := objectModel.input.Blur,
                         result := objectModel.result.Blur } ∧
    (objectModel.Update plainWidgets (Msg.key "esc")).model.textInput.focus = false ∧
    (objectModel.Update plainWidgets (Msg.key "esc")).model.input.Focused = false ∧
    (objectModel.Update plainWidgets (Msg.key "esc")).model.result.Focused = false ∧
    (objectModel.Update plainWidgets (Msg.key "esc")).model.width = objectModel.width ∧
    (objectModel.Update plainWidgets (Msg.key "esc")).model.height = objectModel.height ∧
    (objectModel.Update plainWidgets (Msg.key "esc")).model.initialInput =
      objectModel.initialInput ∧
    (objectModel.Update plainWidgets (Msg.key "esc")).model.keymap = objectModel.keymap ∧
    (objectModel.Update plainWidgets (Msg.key "esc")).model.textInput.Value =
      objectModel.textInput.Value ∧
    (objectModel.Update plainWidgets (Msg.key "esc")).model.input.Value =
      objectModel.input.Value ∧
    (objectModel.Update plainWidgets (Msg.key "esc")).model.result.Value =
      objectModel.result.Value ∧
    (objectModel.Update plainWidgets (Msg.key "esc")).model.input.width =
      objectModel.input.width ∧
    (objectModel.Update plainWidgets (Msg.key "esc")).model.input.height =
      objectModel.input.height ∧
    (objectModel.Update plainWidgets (Msg.key "esc")).model.result.width =
      objectModel.result.width ∧
    (objectModel.Update plainWidgets (Msg.key "esc")).model.result.height =
      objectModel.result.height :=
  ⟨by decide, update_quit_only_blurs plainWidgets objectModel "esc" (by decide)⟩

/-- With the engine as `jsonslice.Get`, the first `Update` of the model
`newModel(nil)` evaluates the preset query on a document without bytes and
shows an error, although the editor pane shows the sample document. -/
theorem newModel_nil_first_update_shows_error :
    ((newModel plainWidgets none).Update plainWidgets (Msg.windowSize 80 24)).evals =
      [(none, "$.requestedItemsStatus[0].id")] ∧
    ((newModel plainWidgets none).Update plainWidgets (Msg.windowSize 80 24)).model.input.Value
      = sampleDocument ∧
    ((newModel plainWidgets none).Update plainWidgets
      (Msg.windowSize 80 24)).model.result.Value = "UnexpectedEndOfInput" :=
  ⟨rfl, rfl, by decide⟩

set_option maxRecDepth 100000 in
/-- With the engine as `jsonslice.Get`, the preset query evaluated on the
sample document gives the identifier of the first requested item. -/
theorem preset_query_on_sample_document :
    engineGet noRegex (some sampleDocument) "$.requestedItemsStatus[0].id" =
      Except.ok (some "\"2c91808b6ef1d43e016efba0ce470904\"") := by
  rfl

end JsonPathEvaluator
